import Mathlib

/-!
Verification development for the Apollo enrichment pipeline
(`db.py`, `apollo.py`, `utils.py`, `ingest.py`).

The Python code is shallowly embedded:

* Python scalar values that the merge engine distinguishes (`None`,
  float NaN, strings) are the inductive type `Val`;
* Python dicts (records, rows) are association lists `List (String × Val)`
  with insertion-order semantics (`getKey` returns the first binding,
  `setKey` replaces in place or appends, mirroring `dict.__setitem__`);
* the SQLite/Postgres backend is the explicit state type `Store`
  (known columns, rows keyed by the auto-increment identifier, the next
  identifier), and each fallible operation returns `Except String`;
* impure inputs (the current UTC timestamp, the HTTP layer) are passed
  as explicit parameters / oracles.
-/

/-- Python scalar values distinguished by the merge engine of `db.py`:
`None`, a float NaN, or a string. -/
inductive Val where
  | vnone : Val
  | vnan : Val
  | vstr : String → Val
deriving DecidableEq, Repr

/-- A Python dict from column name to value, as an insertion-ordered
association list with unique keys. -/
abbrev Rec := List (String × Val)

/-- Predicate `_is_empty` from `db.py`: `None`, the empty string, and float
NaN are empty; everything else is non-empty. -/
def Val.isEmptyV : Val → Bool
  | .vnone => true
  | .vnan => true
  | .vstr s => s = ""

/-- Predicate `_has_value` from `db.py`. -/
def Val.hasValue (v : Val) : Bool := !v.isEmptyV

/-- Python truthiness of a `Val`: `None` and `""` are falsy, NaN and
non-empty strings are truthy. -/
def Val.pyTruthy : Val → Bool
  | .vnone => false
  | .vnan => true
  | .vstr s => s ≠ ""

/-- Python `str()` of a `Val`. -/
def Val.pyStr : Val → String
  | .vnone => "None"
  | .vnan => "nan"
  | .vstr s => s

/-- Dict lookup: value of the first binding of key `k` (`d[k]` / `d.get(k)`). -/
def getKey : Rec → String → Option Val
  | [], _ => none
  | (k', v) :: t, k => if k' = k then some v else getKey t k

/-- Dict assignment `d[k] = v`: replace the binding in place if the key is
present, else append a new binding (Python dicts preserve insertion order). -/
def setKey : Rec → String → Val → Rec
  | [], k, v => [(k, v)]
  | (k', v') :: t, k, v => if k' = k then (k, v) :: t else (k', v') :: setKey t k v

/-- Dict deletion `d.pop(k, None)` (keys are unique in a dict, so removing
every binding of `k` is the same as removing the one binding). -/
def eraseKey : Rec → String → Rec
  | [], _ => []
  | (k', v') :: t, k => if k' = k then eraseKey t k else (k', v') :: eraseKey t k

/-- The keys of a record, in insertion order. -/
def keysOf (r : Rec) : List String := r.map Prod.fst

@[simp] theorem getKey_nil (k : String) : getKey [] k = none := rfl

/-- Boolean string-prefix test on the underlying character lists
(used for `str.startswith` in the Python source). -/
def listIsPre : List Char → List Char → Bool
  | [], _ => true
  | _ :: _, [] => false
  | p :: ps, c :: cs => p = c && listIsPre ps cs

/-- Python `s.startswith(p)`. -/
def strStartsWith (p s : String) : Bool := listIsPre p.data s.data

namespace Db

/-- The identifier column. -/
def snCol : String := "S.N."

/-- The natural-key column. -/
def emailCol : String := "Email ID (unique)"

/-- The last-updated timestamp column. -/
def updCol : String := "UPDATE AS ON"

/-- Constant `EMAIL_SEND_COLUMN` from `db.py`: the protected column that must
never be overwritten on update. -/
def emailSendCol : String := "Email Send (Yes/No)"

/-- Constant `BASE_COLUMNS` from `config.py`. -/
def BASE_COLUMNS : List String :=
  ["S.N.",
   "Company Name (Based on Website Domain)",
   "Industry",
   "Revenue",
   "Size",
   "Company Address / Headquarters",
   "Contact Number (Company)",
   "Listed Company",
   "Website URLs",
   "LinkedIn Company Page",
   "# Employees",
   "First Name",
   "Last Name",
   "Job Title",
   "Email ID (unique)",
   "Person LinkedIn Profile",
   "Contact Number (Person)",
   "Country",
   "State",
   "Lead Source",
   "Client Type",
   "UPDATE AS ON",
   "Email Send (Yes/No)"]

/-- Column-name test `col.startswith(("Apollo Person:", "Apollo Company:"))`
used by `_insert_record` / `_update_record` to select the columns handed to
`ensure_apollo_columns`. -/
def isApolloCol (k : String) : Bool :=
  strStartsWith "Apollo Person:" k || strStartsWith "Apollo Company:" k

/-- State of the Truth table held by a backend: the known columns (the
schema, equally the `column_cache`), the persisted rows keyed by their
auto-increment identifier, and the next identifier the backend will assign. -/
structure Store where
  columns : List String
  rows : List (Nat × Rec)
  nextSn : Nat
deriving DecidableEq, Repr

/-- A freshly initialized store (`initialize_schema` on an empty database):
the base columns, no rows, auto-increment starting at 1. -/
def initStore : Store := ⟨BASE_COLUMNS, [], 1⟩

/-- Method `ensure_apollo_columns`: every requested column not yet in the
cached column set is added (as a nullable text column) and cached, one at a
time. -/
def ensureApolloColumns (st : Store) (cols : List String) : Store :=
  { st with
    columns := cols.foldl (fun acc c => if acc.contains c then acc else acc ++ [c]) st.columns }

/-- The columns of a record that `_insert_record` / `_update_record` hand to
`ensure_apollo_columns` (only the Apollo-namespaced ones). -/
def apolloColsOf (r : Rec) : List String := (keysOf r).filter isApolloCol

/-- Method `_insert_record`: drop any incoming `S.N.`, ensure the
Apollo-namespaced columns exist, then run the INSERT (which fails if some
key is still not a column of the table); the backend assigns the next
identifier. -/
def insertRecord (st : Store) (record : Rec) : Except String (Nat × Store) :=
  let rc := eraseKey record snCol
  let st1 := ensureApolloColumns st (apolloColsOf rc)
  if (keysOf rc).all (fun k => st1.columns.contains k) then
    .ok (st1.nextSn,
      { st1 with rows := st1.rows ++ [(st1.nextSn, rc)], nextSn := st1.nextSn + 1 })
  else .error "no such column"

/-- Application of a SET clause to a stored row: each updated column is
written in place. -/
def setEntries (r : Rec) (entries : Rec) : Rec :=
  entries.foldl (fun acc kv => setKey acc kv.1 kv.2) r

/-- Method `_update_record`: ensure the Apollo-namespaced columns exist,
then UPDATE every non-`S.N.` column of the record on the row whose `S.N.`
matches (failing if some key is still not a column of the table). -/
def updateRecord (st : Store) (sn : Nat) (record : Rec) : Except String Store :=
  let st1 := ensureApolloColumns st (apolloColsOf record)
  let upd := eraseKey record snCol
  if (keysOf upd).all (fun k => st1.columns.contains k) then
    .ok { st1 with
      rows := st1.rows.map (fun p => if p.1 = sn then (p.1, setEntries p.2 upd) else p) }
  else .error "no such column"

/-- Method `get_existing_record`: the row whose natural-key column equals the
email (the `SELECT * ... WHERE "Email ID (unique)" = ?` lookup). -/
def getExisting (st : Store) (email : String) : Option (Nat × Rec) :=
  st.rows.find? (fun p => decide (getKey p.2 emailCol = some (Val.vstr email)))

/-- Result of reading a stored row back through `SELECT *` and `dict(row)`:
every non-identifier column of the table is a key, columns the row never
wrote read as SQL NULL, i.e. Python `None` (the identifier is handled
separately, as the `Nat` paired with the row). -/
def materialize (st : Store) (r : Rec) : Rec :=
  (st.columns.filter (fun c => c ≠ snCol)).map (fun c => (c, (getKey r c).getD .vnone))

/-- One iteration of the merge loop of `upsert_record` (`db.py` lines
529-540), acting on the pair (merged dict, `fields_filled`). -/
def mergeStep (acc : Rec × Nat) (kv : String × Val) : Rec × Nat :=
  if kv.1 = snCol ∨ kv.1 = emailSendCol then acc
  else
    match getKey acc.1 kv.1 with
    | none => (setKey acc.1 kv.1 kv.2, if kv.2.hasValue then acc.2 + 1 else acc.2)
    | some old =>
      if old.isEmptyV && kv.2.hasValue then
        (setKey acc.1 kv.1 kv.2, if kv.1 = updCol then acc.2 else acc.2 + 1)
      else acc

/-- The whole merge loop of `upsert_record`: starting from a copy of the
existing row and `fields_filled = 0`, process the incoming items in order. -/
def mergeFold (existing record : Rec) : Rec × Nat :=
  record.foldl mergeStep (existing, 0)

/-- Action returned by `upsert_record`. -/
inductive UpsertAction where
  | insert : UpsertAction
  | update : UpsertAction
  | skip : UpsertAction
deriving DecidableEq, Repr

/-- Record actually inserted on the INSERT path of `upsert_record`
(`db.py` lines 520-523): the incoming record with a freshly stamped
`UPDATE AS ON` and the protected column defaulted to `"No"` when absent. -/
def insertPayload (now : String) (record : Rec) : Rec :=
  let r1 := setKey record updCol (.vstr now)
  if (getKey r1 emailSendCol).isSome then r1
  else setKey r1 emailSendCol (.vstr "No")

/-- Method `DatabaseManager.upsert_record`. The current UTC timestamp is an
explicit parameter `now`. A record whose natural-key value is absent, `None`
or `""` raises `ValueError`; a NaN natural key also ends in a raised error in
the source (the NOT NULL constraint on the natural-key column fires), so it
is modelled as the same error. -/
def upsert_record (now : String) (st : Store) (record : Rec) :
    Except String (Nat × UpsertAction × Store) :=
  match getKey record emailCol with
  | some (.vstr e) =>
    if e = "" then .error "Email ID (unique) is required for upsert"
    else
      match getExisting st e with
      | none =>
        match insertRecord st (insertPayload now record) with
        | .ok p => .ok (p.1, .insert, p.2)
        | .error msg => .error msg
      | some (sn, stored) =>
        let m := mergeFold (materialize st stored) record
        if m.2 = 0 then .ok (sn, .skip, st)
        else
          match updateRecord st sn (setKey m.1 updCol (.vstr now)) with
          | .ok st2 => .ok (sn, .update, st2)
          | .error msg => .error msg
  | _ => .error "Email ID (unique) is required for upsert"

/-- Value stored under one key of the statistics dict built by
`upsert_batch`. -/
inductive StatVal where
  | num : Nat → StatVal
  | emails : List String → StatVal
  | failures : List (String × String) → StatVal
deriving DecidableEq, Repr

/-- Expression `record.get("Email ID (unique)") or ""` from `upsert_batch`
(`str(float("nan"))` is `"nan"`). -/
def emailStrOf (r : Rec) : String :=
  match getKey r emailCol with
  | some v => if v.pyTruthy then v.pyStr else ""
  | none => ""

/-- Accumulated state of the `upsert_batch` loop. -/
structure BatchAcc where
  sns : List Int
  inserted : Nat
  updated : Nat
  failed : Nat
  insertedEmails : List String
  updatedEmails : List String
  failedRecords : List (String × String)
  store : Store
deriving DecidableEq, Repr

/-- One iteration of the `upsert_batch` loop: a successful upsert records its
identifier and bumps the matching counter/list; a raising upsert is caught,
counted as failed with the record natural key and the error message, appends
`-1` to the identifier list, and processing continues with the store
unchanged. -/
def batchStep (now : String) (acc : BatchAcc) (record : Rec) : BatchAcc :=
  let email := emailStrOf record
  match upsert_record now acc.store record with
  | .ok (sn, a, st2) =>
    { acc with
      sns := acc.sns ++ [Int.ofNat sn]
      store := st2
      inserted := if a = .insert then acc.inserted + 1 else acc.inserted
      insertedEmails :=
        if a = .insert then acc.insertedEmails ++ [email] else acc.insertedEmails
      updated := if a = .update then acc.updated + 1 else acc.updated
      updatedEmails :=
        if a = .update then acc.updatedEmails ++ [email] else acc.updatedEmails }
  | .error msg =>
    { acc with
      sns := acc.sns ++ [(-1 : Int)]
      failed := acc.failed + 1
      failedRecords := acc.failedRecords ++ [(email, msg)] }

/-- Statistics dict returned by `upsert_batch`, with exactly the keys the
source populates, in insertion order. -/
def statsListOf (acc : BatchAcc) : List (String × StatVal) :=
  [("inserted", .num acc.inserted),
   ("updated", .num acc.updated),
   ("failed", .num acc.failed),
   ("inserted_emails", .emails acc.insertedEmails),
   ("updated_emails", .emails acc.updatedEmails),
   ("failed_records", .failures acc.failedRecords)]

/-- Method `DatabaseManager.upsert_batch`: process the records in order,
returning the identifier list, the statistics dict, and the final store. -/
def upsert_batch (now : String) (st : Store) (records : List Rec) :
    List Int × List (String × StatVal) × Store :=
  let acc := records.foldl (batchStep now)
    ⟨[], 0, 0, 0, [], [], [], st⟩
  (acc.sns, statsListOf acc, acc.store)

/-- Fill condition of the merge loop: the incoming item gets counted in
`fields_filled` exactly when its key is neither the identifier nor the
protected column, its value is non-empty, and the existing value is either
absent or empty (with the timestamp column exempt from the count in the
present-and-empty case). -/
def adoptCond (existing : Rec) (kv : String × Val) : Bool :=
  !(kv.1 = snCol || kv.1 = emailSendCol) && kv.2.hasValue &&
    (match getKey existing kv.1 with
     | none => true
     | some old => old.isEmptyV && !(kv.1 = updCol))

/-- Row of the store with the given identifier (the row a
`WHERE "S.N." = ?` statement touches). -/
def rowOf (st : Store) (sn : Nat) : Option Rec :=
  (st.rows.find? (fun p => decide (p.1 = sn))).map Prod.snd

/-- Observable value of one column of one row, as a `SELECT` returns it:
columns the row never wrote read as `None`. -/
def obsVal (st : Store) (sn : Nat) (c : String) : Option Val :=
  (rowOf st sn).map (fun r => (getKey r c).getD .vnone)

/-- Observable content of a cell of the existing row as the merge loop sees
it: empty means absent, `None`, `""`, or NaN. -/
def emptyCell : Option Val → Bool
  | none => true
  | some v => v.isEmptyV

/-- Statement of claim C1 at given arguments: the per-field fill-only-if-empty
behaviour of the merge, the fill counter, and the NO-OP / UPDATE outcomes. -/
def C1Conclusion (now : String) (st : Store) (record : Rec)
    (sn : Nat) (stored : Rec) : Prop :=
  (∀ k v, getKey record k = some v → k ≠ snCol → k ≠ emailSendCol →
      emptyCell (getKey (materialize st stored) k) = true → v.hasValue = true →
      getKey (mergeFold (materialize st stored) record).1 k = some v) ∧
  (∀ k old, getKey (materialize st stored) k = some old → old.hasValue = true →
      getKey (mergeFold (materialize st stored) record).1 k = some old) ∧
  (∀ k v, getKey record k = some v → k ≠ snCol → k ≠ emailSendCol →
      ¬ (emptyCell (getKey (materialize st stored) k) = true ∧ v.hasValue = true) →
      getKey (mergeFold (materialize st stored) record).1 k =
          getKey (materialize st stored) k ∨
        (emptyCell (getKey (materialize st stored) k) = true ∧
         emptyCell (getKey (mergeFold (materialize st stored) record).1 k) = true)) ∧
  ((mergeFold (materialize st stored) record).2 =
      record.countP (adoptCond (materialize st stored))) ∧
  ((mergeFold (materialize st stored) record).2 = 0 →
      upsert_record now st record = .ok (sn, .skip, st)) ∧
  ((mergeFold (materialize st stored) record).2 ≠ 0 →
      ∃ st2, upsert_record now st record = .ok (sn, .update, st2) ∧
        obsVal st2 sn updCol = some (.vstr now) ∧
        st2.rows.map Prod.fst = st.rows.map Prod.fst ∧
        (∀ k v, getKey (mergeFold (materialize st stored) record).1 k = some v →
          k ≠ updCol → k ≠ snCol → obsVal st2 sn k = some v))

/-- Concrete stored row used by the C1 witness. -/
def c1Row : Rec := [(emailCol, .vstr "jane@acme.com"), ("First Name", .vstr "")]

/-- Concrete store used by the C1 witness. -/
def c1Store : Store := ⟨BASE_COLUMNS, [(1, c1Row)], 2⟩

/-- Concrete incoming record used by the C1 witness. -/
def c1Record : Rec := [(emailCol, .vstr "jane@acme.com"), ("First Name", .vstr "Jane")]

/-- Concrete record used by the C2 witness. -/
def c2Record : Rec :=
  [(emailCol, .vstr "bob@x.co"), ("First Name", .vstr "Bob"), ("Last Name", .vstr "")]

/-- Concrete stored row (protected column already `"Yes"`) for the C3
witness. -/
def c3Row : Rec :=
  [(emailCol, .vstr "amy@z.io"), (emailSendCol, .vstr "Yes"), ("Job Title", .vstr "")]

/-- Concrete store for the C3 witness. -/
def c3Store : Store := ⟨BASE_COLUMNS, [(1, c3Row)], 2⟩

/-- Concrete incoming record carrying `"No"` for the protected column plus a
fillable field, for the C3 witness. -/
def c3Record : Rec :=
  [(emailCol, .vstr "amy@z.io"), (emailSendCol, .vstr "No"), ("Job Title", .vstr "CTO")]

/-- Concrete incoming record carrying a bogus `S.N.` for the C10 witness. -/
def c10Record : Rec := [(emailCol, .vstr "eve@q.com"), (snCol, .vstr "999")]

/-- Concrete record carrying an unknown column outside the Apollo namespace,
for the C4 counterexample. -/
def c4BadRecord : Rec := [(emailCol, .vstr "sam@d.org"), ("Custom Field", .vstr "v")]

/-- Concrete record whose unknown column is Apollo-namespaced, for the C4
witness. -/
def c4GoodRecord : Rec :=
  [(emailCol, .vstr "ann@h.co"), ("Apollo Person: Seniority", .vstr "vp")]

/-- Accumulator of `upsert_batch` with nothing processed yet. -/
def emptyAcc (s : Store) : BatchAcc := ⟨[], 0, 0, 0, [], [], [], s⟩

/-- Concatenation of two `upsert_batch` accumulators (the second continues
from the first's store). -/
def combineAcc (a b : BatchAcc) : BatchAcc :=
  ⟨a.sns ++ b.sns, a.inserted + b.inserted, a.updated + b.updated,
   a.failed + b.failed, a.insertedEmails ++ b.insertedEmails,
   a.updatedEmails ++ b.updatedEmails, a.failedRecords ++ b.failedRecords,
   b.store⟩

/-- Concrete stored row and incoming record (identical) for the C8
counterexample. -/
def c8Row : Rec := [(emailCol, .vstr "kim@p.io"), ("Country", .vstr "US")]

/-- Concrete store for the C8 counterexample. -/
def c8Store : Store := ⟨BASE_COLUMNS, [(1, c8Row)], 2⟩

end Db

/-- Structural helper for `chunk_list`: the fuel starts at the length of the
list, which bounds the number of chunks whenever the chunk size is
positive. -/
def chunkGo {α : Type} : Nat → List α → Nat → List (List α)
  | 0, _, _ => []
  | _ + 1, [], _ => []
  | fuel + 1, a :: as, n => (a :: as).take n :: chunkGo fuel ((a :: as).drop n) n

/-- Function `chunk_list` from `utils.py`: split a list into consecutive
chunks of the given size (`items[i:i+n]` for `i = 0, n, 2n, ...`). A chunk
size of zero makes the Python `range` raise; the model returns `[]` and the
theorems assume a positive size. -/
def chunk_list {α : Type} (items : List α) (chunk_size : Nat) : List (List α) :=
  if chunk_size = 0 then [] else chunkGo items.length items chunk_size

/-- Whitespace characters stripped by Python `str.strip()` (the ASCII ones). -/
def wsChar (c : Char) : Bool :=
  c = ' ' ∨ c = '\t' ∨ c = '\n' ∨ c = '\r' ∨ c = Char.ofNat 11 ∨ c = Char.ofNat 12

/-- Python `str.strip()` on a character list: drop whitespace from both
ends. -/
def pyStripL (s : List Char) : List Char :=
  ((s.dropWhile wsChar).reverse.dropWhile wsChar).reverse

/-- Python `str.strip()` on a string. -/
def pyStripS (s : String) : String := String.mk (pyStripL s.data)

namespace Ap

/-- Column holding the domain-bearing website value. -/
def websiteCol : String := "Website URLs"

/-- Column holding the company name. -/
def companyCol : String := "Company Name (Based on Website Domain)"

/-- Error-marker field attached to every record of a failed group. -/
def errKey : String := "_enrichment_error"

/-- Function `extract_domain` from `utils.py`: prepend a scheme when
missing, take `urlparse(...).netloc` (the text after `scheme://` up to the
first `/`, `?` or `#`) or, when that is empty, the parsed path (up to `?` or
`#`), strip a leading `www.`, and lower-case; empty input or an empty result
gives `None`. -/
def extract_domain (url : String) : Option String :=
  if url = "" then none
  else
    let u := if strStartsWith "http://" url || strStartsWith "https://" url
             then url else "https://" ++ url
    let after : List Char :=
      if strStartsWith "https://" u then u.data.drop 8 else u.data.drop 7
    let netloc : List Char := after.takeWhile (fun c => c ≠ '/' ∧ c ≠ '?' ∧ c ≠ '#')
    let dom : List Char :=
      if netloc = [] then after.takeWhile (fun c => c ≠ '?' ∧ c ≠ '#') else netloc
    let dom2 : List Char := if listIsPre "www.".data dom then dom.drop 4 else dom
    if dom2 = [] then none else some (String.mk (dom2.map Char.toLower))

/-- Condition `record.get("Website URLs") and str(record["Website URLs"]).strip()`
from `enrich_organizations_bulk`. -/
def hasWebsite (r : Rec) : Bool :=
  ((getKey r websiteCol).getD .vnone).pyTruthy &&
    pyStripS (((getKey r websiteCol).getD .vnone).pyStr) ≠ ""

/-- Condition on the company-name column from `enrich_organizations_bulk`. -/
def hasCompany (r : Rec) : Bool :=
  ((getKey r companyCol).getD .vnone).pyTruthy &&
    pyStripS (((getKey r companyCol).getD .vnone).pyStr) ≠ ""

/-- A record carrying a domain or a company name (the eligibility split). -/
def hasOrgInfo (r : Rec) : Bool := hasWebsite r || hasCompany r

/-- Domain extracted from the record's website value. -/
def domainOf (r : Rec) : Option String :=
  extract_domain (pyStripS (((getKey r websiteCol).getD .vnone).pyStr))

/-- A record that contributes a domain to the provider payload: it has a
website value and `extract_domain` resolves it. -/
def domainPred (r : Rec) : Bool := hasWebsite r && (domainOf r).isSome

/-- List `records_with_org_info` built by the org-batch loop. -/
def orgWithInfo (batch : List Rec) : List Rec := batch.filter hasOrgInfo

/-- List `records_without_org_info` built by the org-batch loop. -/
def orgWithoutInfo (batch : List Rec) : List Rec :=
  batch.filter (fun r => !hasOrgInfo r)

/-- List `records_with_domain` built by the org-batch loop. -/
def orgWithDomain (batch : List Rec) : List Rec :=
  (orgWithInfo batch).filter domainPred

/-- List `domains` sent to the provider for one batch. -/
def orgDomains (batch : List Rec) : List String :=
  (orgWithDomain batch).filterMap domainOf

/-- List `records_with_only_company`: the org-info records not in
`records_with_domain` (membership by value equality, as in the source). -/
def orgOnlyCompany (batch : List Rec) : List Rec :=
  (orgWithInfo batch).filter (fun r => !(orgWithDomain batch).contains r)

/-- Method `_parse_org_response`: match `i` is merged (dict update) into the
original record at position `i`; a missing or falsy match leaves the record
unchanged. The provider-response-to-column mapping
(`map_apollo_company_response`) is the abstract parameter `mapCompany`, and
a falsy match (JSON null or empty object) is modelled as `none`. -/
def parseOrgResponse {O : Type} (mapCompany : O → Rec)
    (ms : List (Option O)) (origs : List Rec) : List Rec :=
  origs.enum.map (fun p =>
    match ms.get? p.1 with
    | some (some m) => Db.setEntries p.2 (mapCompany m)
    | _ => p.2)

/-- One iteration of the batch loop of `enrich_organizations_bulk`
(`apollo.py` lines 123-182): split the batch by eligibility, skip the
provider call when no domains resolved, otherwise send the domain list; on
success output the enriched domain-bearing records, then the company-only
records, then the records without org info; any exception marks every record
of the batch with `_enrichment_error`. The HTTP layer is the oracle `api`
(payload to parsed `matches` array or raised error message). -/
def processOrgBatch {O : Type} (api : List String → Except String (List (Option O)))
    (mapCompany : O → Rec) (batch : List Rec) : List Rec :=
  if orgDomains batch = [] then orgWithInfo batch ++ orgWithoutInfo batch
  else
    match api (orgDomains batch) with
    | .ok ms =>
      parseOrgResponse mapCompany ms (orgWithDomain batch) ++
        orgOnlyCompany batch ++ orgWithoutInfo batch
    | .error e => batch.map (fun r => setKey r errKey (.vstr e))

/-- Effective batch size: the requested size if given and truthy, else the
configured one, clamped to the provider cap of 10
(`batch_size = batch_size or config.APOLLO_BATCH_SIZE` then
`min(batch_size, 10)`). -/
def effBatch (req : Option Nat) (cfg : Nat) : Nat :=
  min (match req with
       | some b => if b = 0 then cfg else b
       | none => cfg) 10

/-- Method `ApolloClient.enrich_organizations_bulk`: process the capped-size
chunks in order, concatenating each batch's output. -/
def enrich_organizations_bulk {O : Type}
    (api : List String → Except String (List (Option O)))
    (mapCompany : O → Rec) (cfg : Nat) (req : Option Nat)
    (records : List Rec) : List Rec :=
  ((chunk_list records (effBatch req cfg)).map (processOrgBatch api mapCompany)).flatten

/-- One entry of the `details` array of the people bulk-match payload, as
built by `_prepare_people_payload` (each field present only when the source
field is truthy; `organization_name` only when there is no website value). -/
structure Detail where
  first_name : Option Val := none
  last_name : Option Val := none
  organization_domain : Option Val := none
  organization_name : Option Val := none
  email : Option Val := none
deriving DecidableEq, Repr

/-- Construction of one `detail` dict by `_prepare_people_payload`. -/
def buildDetail (r : Rec) : Detail :=
  { first_name :=
      if ((getKey r "First Name").getD .vnone).pyTruthy
      then some ((getKey r "First Name").getD .vnone) else none
    last_name :=
      if ((getKey r "Last Name").getD .vnone).pyTruthy
      then some ((getKey r "Last Name").getD .vnone) else none
    organization_domain :=
      if ((getKey r websiteCol).getD .vnone).pyTruthy
      then some ((getKey r websiteCol).getD .vnone) else none
    organization_name :=
      if ¬ ((getKey r websiteCol).getD .vnone).pyTruthy = true ∧
          ((getKey r companyCol).getD .vnone).pyTruthy
      then some ((getKey r companyCol).getD .vnone) else none
    email :=
      if ((getKey r Db.emailCol).getD .vnone).pyTruthy
      then some ((getKey r Db.emailCol).getD .vnone) else none }

/-- Payload `{"details": [...]}` of one people bulk-match call. -/
structure PeoplePayload where
  details : List Detail
deriving DecidableEq, Repr

/-- Method `_prepare_people_payload`. -/
def prepare_people_payload (records : List Rec) : PeoplePayload :=
  ⟨records.map buildDetail⟩

/-- One iteration of the batch loop of `enrich_people_bulk`: prepare the
payload, make exactly one provider call, parse on success, mark every record
of the batch with `_enrichment_error` on failure. The response parsing
(`_parse_people_response` with its `map_apollo_person_response` /
`map_apollo_company_response` field mapping) is the abstract parameter
`parse`. -/
def processPeopleBatch {Resp : Type} (api : PeoplePayload → Except String Resp)
    (parse : Resp → List Rec → List Rec) (batch : List Rec) : List Rec :=
  match api (prepare_people_payload batch) with
  | .ok resp => parse resp batch
  | .error e => batch.map (fun r => setKey r errKey (.vstr e))

/-- Method `ApolloClient.enrich_people_bulk`. -/
def enrich_people_bulk {Resp : Type} (api : PeoplePayload → Except String Resp)
    (parse : Resp → List Rec → List Rec) (cfg : Nat) (req : Option Nat)
    (records : List Rec) : List Rec :=
  ((chunk_list records (effBatch req cfg)).map (processPeopleBatch api parse)).flatten

/-- The payloads of the provider calls made by `enrich_people_bulk`: the
loop body issues exactly one `_make_request` per chunk, with the payload
prepared from that chunk (whatever the outcome of the call). -/
def peopleCallPayloads (cfg : Nat) (req : Option Nat) (records : List Rec) :
    List PeoplePayload :=
  (chunk_list records (effBatch req cfg)).map prepare_people_payload

/-- Record with no org info (C5 counterexample, first input position). -/
def c5r1 : Rec := [("First Name", .vstr "Ann")]

/-- Record with a resolvable domain (C5 counterexample, second input
position). -/
def c5r2 : Rec := [(websiteCol, .vstr "example.com")]

/-- Concrete list of 11 records for the C6 witness. -/
def c6Records : List Rec := List.replicate 11 [("First Name", Val.vstr "A")]

/-- Outcome of one HTTP POST attempt, as seen by `_make_request`: a response
with a status code, text, and parsed JSON body; a `requests.Timeout`; or
another `requests.RequestException`. -/
inductive HttpOutcome (β : Type) where
  | resp : Nat → String → β → HttpOutcome β
  | timeoutExn : HttpOutcome β
  | reqExn : String → HttpOutcome β

/-- Typed `ApolloAPIError` raised by `_make_request`: a terminal client
error carrying the offending status and text, a terminal non-timeout network
error, or retry-budget exhaustion after the configured number of attempts. -/
inductive ApolloErr where
  | apiError : Nat → String → ApolloErr
  | requestFailed : String → ApolloErr
  | exhausted : Nat → ApolloErr
deriving DecidableEq, Repr

/-- Retry-relevant configuration of the client (`config.py`):
`APOLLO_MAX_RETRIES`, `APOLLO_INITIAL_BACKOFF`, `APOLLO_MAX_BACKOFF`. -/
structure ApolloCfg where
  maxRetries : Nat
  initialBackoff : ℚ
  maxBackoff : ℚ
deriving DecidableEq, Repr

/-- Method `_calculate_backoff`: `min(initial_backoff * 2 ** attempt,
max_backoff)`. -/
def calculate_backoff (cfg : ApolloCfg) (attempt : Nat) : ℚ :=
  min (cfg.initialBackoff * 2 ^ attempt) cfg.maxBackoff

/-- Expression `int(timeout * 1.5)` applied after a timeout-triggered retry
(exact for the integer timeouts involved: truncation of `t * 1.5` is
`3 * t / 2` in integer division). -/
def timeoutStep (t : Nat) : Nat := 3 * t / 2

/-- Result of `_make_request` together with its observable side effects: the
durations slept (one per retry) and the timeout passed to each POST. -/
structure ReqResult (β : Type) where
  result : Except ApolloErr β
  sleeps : List ℚ
  timeoutsUsed : List Nat

/-- The retry loop of `_make_request` (`apollo.py` lines 212-272). The fuel
is `maxRetries - attempt`, so `fuel > 0` is exactly the loop guard
`attempt < max_retries`. The oracle `out` gives the outcome of the POST as a
function of the attempt index and the timeout used. HTTP 200 returns the
body; 429 and 5xx sleep `_calculate_backoff(attempt)` and retry with
`attempt + 1`; any other status raises a typed error at once; a timeout
sleeps, retries with `attempt + 1`, and increases the timeout by half; any
other request exception raises a typed error at once; running out of
attempts raises the typed exhausted-retries error. -/
def mkreqGo {β : Type} (cfg : ApolloCfg) (out : Nat → Nat → HttpOutcome β) :
    Nat → Nat → Nat → List ℚ → List Nat → ReqResult β
  | 0, _, _, sleeps, touts => ⟨.error (.exhausted cfg.maxRetries), sleeps, touts⟩
  | fuel + 1, attempt, tmo, sleeps, touts =>
    match out attempt tmo with
    | .resp code text body =>
      if code = 200 then ⟨.ok body, sleeps, touts ++ [tmo]⟩
      else if code = 429 ∨ (500 ≤ code ∧ code < 600) then
        mkreqGo cfg out fuel (attempt + 1) tmo
          (sleeps ++ [calculate_backoff cfg attempt]) (touts ++ [tmo])
      else ⟨.error (.apiError code text), sleeps, touts ++ [tmo]⟩
    | .timeoutExn =>
      mkreqGo cfg out fuel (attempt + 1) (timeoutStep tmo)
        (sleeps ++ [calculate_backoff cfg attempt]) (touts ++ [tmo])
    | .reqExn msg => ⟨.error (.requestFailed msg), sleeps, touts ++ [tmo]⟩

/-- Method `_make_request`: run the retry loop from attempt 0 with the given
initial timeout. -/
def make_request {β : Type} (cfg : ApolloCfg) (out : Nat → Nat → HttpOutcome β)
    (tmo : Nat) : ReqResult β :=
  mkreqGo cfg out cfg.maxRetries 0 tmo [] []

/-- A response whose status triggers the sleep-and-retry branch: HTTP 429 or
HTTP 5xx (`response.status_code == 429` and `500 <= status_code < 600`). -/
def retryableResp {β : Type} : HttpOutcome β → Bool
  | .resp code _ _ => code == 429 || decide (500 ≤ code ∧ code < 600)
  | _ => false

/-- Iterated application of the 50 percent timeout increase: the timeout in
force after `k` timeout-triggered retries starting from `t`. -/
def iterTimeout : Nat → Nat → Nat
  | t, 0 => t
  | t, k + 1 => iterTimeout (timeoutStep t) k

/-- The timeouts passed to the first `k` POSTs when every one of them times
out: `t`, then `timeoutStep t`, and so on. -/
def tmoTrace : Nat → Nat → List Nat
  | _, 0 => []
  | t, k + 1 => t :: tmoTrace (timeoutStep t) k

/-- Concrete retry configuration for the witness: 4 attempts, initial
backoff 1s, backoff cap 6s. -/
def c7cfg : ApolloCfg := ⟨4, 1, 6⟩

/-- Concrete outcome oracle: a 429, then a 503, then HTTP 200. -/
def c7out : Nat → Nat → HttpOutcome String := fun a _ =>
  match a with
  | 0 => .resp 429 "rate limited" "x"
  | 1 => .resp 503 "unavailable" "x"
  | _ => .resp 200 "OK" "done"

end Ap

namespace Ing

/-- Character class `[a-zA-Z0-9._%+-]` of the local part of the email
pattern in `validate_email` (`utils.py`). -/
def isLocalChar (c : Char) : Bool :=
  c.isAlpha || c.isDigit || c = '.' || c = '_' || c = '%' || c = '+' || c = '-'

/-- Character class `[a-zA-Z0-9.-]` of the domain part of the email
pattern. -/
def isDomChar (c : Char) : Bool :=
  c.isAlpha || c.isDigit || c = '.' || c = '-'

/-- Split a character list at the first occurrence of `c`: returns the part
before and the part after, or `none` if `c` does not occur. -/
def splitFirst (c : Char) : List Char → Option (List Char × List Char)
  | [] => none
  | x :: xs =>
    if x = c then some ([], xs)
    else (splitFirst c xs).map (fun p => (x :: p.1, p.2))

/-- Split a character list at the last occurrence of `c`. -/
def splitLast (c : Char) (l : List Char) : Option (List Char × List Char) :=
  match splitFirst c l.reverse with
  | none => none
  | some (x, y) => some (y.reverse, x.reverse)

/-- Matching of the anchored pattern
`[a-zA-Z0-9._%+-]+@[a-zA-Z0-9.-]+\.[a-zA-Z]\x7b2,\x7d$` against the whole
string. Since neither character class contains the at sign, the at sign of
the pattern can only match the first at sign of the string; since the
trailing `[a-zA-Z]\x7b2,\x7d$` admits no dot, the literal dot of the pattern
can only match the last dot after the at sign. So the pattern matches
exactly when splitting at the first at sign and then at the last dot yields
a non-empty all-local-chars part, a non-empty all-domain-chars part, and an
alphabetic part of length at least two. -/
def emailMatch (s : List Char) : Bool :=
  match splitFirst '@' s with
  | none => false
  | some (loc, dom) =>
    !loc.isEmpty && loc.all isLocalChar &&
      (match splitLast '.' dom with
       | none => false
       | some (mid, tld) =>
         !mid.isEmpty && mid.all isDomChar &&
           decide (2 ≤ tld.length) && tld.all Char.isAlpha)

/-- Function `validate_email` (`utils.py` lines 104-122): `None` is
rejected; a string blank after `strip()` is rejected; a stripped string
longer than `EMAIL_MAX_LENGTH = 254` is rejected; otherwise the anchored
email pattern decides. -/
def validate_email : Option (List Char) → Bool
  | none => false
  | some s =>
    if (pyStripL s).isEmpty then false
    else if 254 < (pyStripL s).length then false
    else emailMatch (pyStripL s)

/-- The specification's wording of a well-formed email: a non-empty local
part, an at sign, then a domain containing at least one dot and ending in
an alphabetic top-level domain of length at least two. Stated independently
of `emailMatch` to compare the code with the spec. -/
def EmailSpec (s : List Char) : Prop :=
  ∃ loc mid tld : List Char,
    s = loc ++ '@' :: (mid ++ '.' :: tld) ∧
    loc ≠ [] ∧ (∀ c ∈ loc, isLocalChar c = true) ∧
    mid ≠ [] ∧ (∀ c ∈ mid, isDomChar c = true) ∧
    2 ≤ tld.length ∧ (∀ c ∈ tld, c.isAlpha = true)

/-- Row filter `keep_row_email` inside `normalize_dataframe` (`ingest.py`
lines 312-318): missing values (`None`/NaN) are dropped, blank strings are
dropped, and otherwise `validate_email` on the stripped value decides. -/
def keep_row_email (v : Val) : Bool :=
  match v with
  | .vnone => false
  | .vnan => false
  | .vstr s =>
    if (pyStripL s.data).isEmpty then false
    else validate_email (some (pyStripL s.data))

/-- The email-validation stage of `normalize_dataframe` (`ingest.py` lines
308-323): when the canonical email column is present the rows failing
`keep_row_email` are dropped; when it is absent the rows pass unchanged.
No branch raises. -/
def normalizeEmailStage (hasCol : Bool) (rows : List Val) : List Val :=
  if hasCol then rows.filter keep_row_email else rows

/-- The hard error raised by `process_file` (`ingest.py` lines 106-112). -/
def emailColErrMsg : String := "The Excel file must contain an email column"

/-- The email gate of `process_file` (`ingest.py` lines 97-112) restricted
to the email logic: normalize, then return early when no rows remain, then
fail hard exactly when the canonical email column is absent. -/
def processFileEmailGate (hasCol : Bool) (rows : List Val) :
    Except String (List Val) :=
  let kept := normalizeEmailStage hasCol rows
  if kept.length = 0 then .ok kept
  else if hasCol then .ok kept
  else .error emailColErrMsg

end Ing

theorem getKey_cons (k' : String) (v : Val) (t : Rec) (k : String) :
    getKey ((k', v) :: t) k = if k' = k then some v else getKey t k := rfl

@[simp] theorem setKey_getKey_self (r : Rec) (k : String) (v : Val) :
    getKey (setKey r k v) k = some v := by
  induction r with
  | nil => simp [setKey, getKey]
  | cons hd t ih =>
    obtain ⟨k', v'⟩ := hd
    by_cases h : k' = k
    · simp [setKey, h, getKey]
    · simp [setKey, h, getKey, ih]

theorem setKey_getKey_ne (r : Rec) (k k₀ : String) (v : Val) (h : k₀ ≠ k) :
    getKey (setKey r k v) k₀ = getKey r k₀ := by
  have hk : ¬ k = k₀ := fun he => h he.symm
  induction r with
  | nil => simp [setKey, getKey, hk]
  | cons hd t ih =>
    obtain ⟨k', v'⟩ := hd
    by_cases hkk : k' = k
    · subst hkk
      simp [setKey, getKey, hk]
    · simp [setKey, hkk, getKey, ih]

theorem keysOf_setKey_mem (r : Rec) (k : String) (v : Val) (h : k ∈ keysOf r) :
    keysOf (setKey r k v) = keysOf r := by
  induction r with
  | nil => simp [keysOf] at h
  | cons hd t ih =>
    obtain ⟨k', v'⟩ := hd
    by_cases hk : k' = k
    · simp [setKey, hk, keysOf]
    · have hmem : k ∈ keysOf t := by
        simp only [keysOf, List.map_cons, List.mem_cons] at h
        rcases h with h | h
        · exact absurd h.symm hk
        · exact h
      have ih2 := ih hmem
      simp only [keysOf] at ih2 ⊢
      simp [setKey, hk, ih2]

theorem keysOf_setKey_notmem (r : Rec) (k : String) (v : Val) (h : k ∉ keysOf r) :
    keysOf (setKey r k v) = keysOf r ++ [k] := by
  induction r with
  | nil => simp [setKey, keysOf]
  | cons hd t ih =>
    obtain ⟨k', v'⟩ := hd
    simp only [keysOf, List.map_cons, List.mem_cons] at h
    push_neg at h
    have ih2 := ih h.2
    simp only [keysOf] at ih2 ⊢
    simp [setKey, Ne.symm h.1, ih2]

theorem getKey_eq_none_of_notmem (r : Rec) (k : String) (h : k ∉ keysOf r) :
    getKey r k = none := by
  induction r with
  | nil => rfl
  | cons hd t ih =>
    obtain ⟨k', v'⟩ := hd
    simp only [keysOf, List.map_cons, List.mem_cons] at h
    push_neg at h
    simp [getKey, h.1.symm, ih h.2]

theorem getKey_mem_keysOf (r : Rec) (k : String) (v : Val)
    (h : getKey r k = some v) : k ∈ keysOf r := by
  by_contra hk
  rw [getKey_eq_none_of_notmem r k hk] at h
  exact Option.noConfusion h

theorem getKey_of_mem_nodup (r : Rec) (k : String) (v : Val)
    (hn : (keysOf r).Nodup) (h : (k, v) ∈ r) : getKey r k = some v := by
  induction r with
  | nil => simp at h
  | cons hd t ih =>
    obtain ⟨k', v'⟩ := hd
    simp only [keysOf, List.map_cons, List.nodup_cons] at hn
    rcases List.mem_cons.mp h with h | h
    · injection h.symm with h1 h2
      subst h1
      subst h2
      simp [getKey]
    · have hk : k' ≠ k := by
        intro he
        exact hn.1 (he ▸ (List.mem_map.mpr ⟨(k, v), h, rfl⟩))
      simp [getKey, hk, ih hn.2 h]

theorem getKey_eraseKey_self (r : Rec) (k : String) :
    getKey (eraseKey r k) k = none := by
  induction r with
  | nil => rfl
  | cons hd t ih =>
    obtain ⟨k', v'⟩ := hd
    by_cases hk : k' = k
    · simp [eraseKey, hk, ih]
    · simp [eraseKey, hk, getKey, ih]

theorem getKey_eraseKey_ne (r : Rec) (k k₀ : String) (h : k₀ ≠ k) :
    getKey (eraseKey r k) k₀ = getKey r k₀ := by
  induction r with
  | nil => rfl
  | cons hd t ih =>
    obtain ⟨k', v'⟩ := hd
    by_cases hk : k' = k
    · subst hk
      have hne : ¬ k' = k₀ := fun he => h he.symm
      simp [eraseKey, getKey, hne, ih]
    · by_cases hk0 : k' = k₀
      · subst hk0
        simp [eraseKey, getKey, hk, ih]
      · simp [eraseKey, getKey, hk, hk0, ih]

namespace Db

theorem mergeStep_getKey_ne (acc : Rec × Nat) (kv : String × Val) (k : String)
    (h : k ≠ kv.1) : getKey (mergeStep acc kv).1 k = getKey acc.1 k := by
  unfold mergeStep
  by_cases hs : kv.1 = snCol ∨ kv.1 = emailSendCol
  · simp [hs]
  · simp only [if_neg hs]
    cases hacc : getKey acc.1 kv.1 with
    | none => simp [setKey_getKey_ne acc.1 kv.1 k kv.2 h]
    | some old =>
      by_cases hcond : old.isEmptyV && kv.2.hasValue
      · simp [hcond, setKey_getKey_ne acc.1 kv.1 k kv.2 h]
      · simp [hcond]

theorem mergeStep_snd (acc : Rec × Nat) (kv : String × Val) :
    (mergeStep acc kv).2 = acc.2 + (if adoptCond acc.1 kv then 1 else 0) := by
  unfold mergeStep adoptCond
  by_cases h1 : kv.1 = snCol
  · simp [h1]
  · by_cases h2 : kv.1 = emailSendCol
    · simp [h1, h2]
    · have hs : ¬ (kv.1 = snCol ∨ kv.1 = emailSendCol) := by tauto
      simp only [if_neg hs]
      cases hacc : getKey acc.1 kv.1 with
      | none => by_cases hv : kv.2.hasValue <;> simp [hacc, h1, h2, hv]
      | some old =>
        by_cases ho : old.isEmptyV
        · by_cases hv : kv.2.hasValue
          · by_cases hu : kv.1 = updCol <;> simp [hacc, h1, h2, ho, hv, hu]
          · simp [hacc, h1, h2, ho, hv]
        · by_cases hv : kv.2.hasValue <;> simp [hacc, h1, h2, ho, hv]

theorem adoptCond_congr (e1 e2 : Rec) (kv : String × Val)
    (h : getKey e1 kv.1 = getKey e2 kv.1) : adoptCond e1 kv = adoptCond e2 kv := by
  unfold adoptCond
  rw [h]

theorem foldl_mergeStep_getKey_notmem (record : Rec) :
    ∀ (acc : Rec) (n : Nat) (k : String), k ∉ keysOf record →
    getKey (record.foldl mergeStep (acc, n)).1 k = getKey acc k := by
  induction record with
  | nil => intro acc n k _; rfl
  | cons hd rest ih =>
    intro acc n k hk
    simp only [keysOf, List.map_cons, List.mem_cons] at hk
    push_neg at hk
    simp only [List.foldl_cons]
    cases hstep : mergeStep (acc, n) hd with
    | mk acc1 n1 =>
      have h2 := mergeStep_getKey_ne (acc, n) hd k hk.1
      rw [hstep] at h2
      rw [ih acc1 n1 k hk.2, h2]

theorem foldl_mergeStep_getKey_protected (record : Rec) :
    ∀ (acc : Rec) (n : Nat) (k : String), (k = snCol ∨ k = emailSendCol) →
    getKey (record.foldl mergeStep (acc, n)).1 k = getKey acc k := by
  induction record with
  | nil => intro acc n k _; rfl
  | cons hd rest ih =>
    intro acc n k hk
    simp only [List.foldl_cons]
    cases hstep : mergeStep (acc, n) hd with
    | mk acc1 n1 =>
      have h2 : getKey acc1 k = getKey acc k := by
        by_cases he : k = hd.1
        · subst he
          unfold mergeStep at hstep
          rw [if_pos hk] at hstep
          injection hstep with ha _
          rw [← ha]
        · have h3 := mergeStep_getKey_ne (acc, n) hd k he
          rw [hstep] at h3
          exact h3
      rw [ih acc1 n1 k hk, h2]

theorem foldl_mergeStep_getKey_fill (record : Rec) :
    ∀ (acc : Rec) (n : Nat) (k : String) (v : Val), (keysOf record).Nodup →
    (k, v) ∈ record → ¬ (k = snCol ∨ k = emailSendCol) →
    ((getKey acc k = none ∨ ∃ old, getKey acc k = some old ∧ (old.isEmptyV && v.hasValue)) →
      getKey (record.foldl mergeStep (acc, n)).1 k = some v) ∧
    (∀ old, getKey acc k = some old → ¬ (old.isEmptyV && v.hasValue) →
      getKey (record.foldl mergeStep (acc, n)).1 k = some old) := by
  induction record with
  | nil =>
    intro acc n k v _ hmem _
    simp at hmem
  | cons hd rest ih =>
    intro acc n k v hn hmem hns
    simp only [keysOf, List.map_cons, List.nodup_cons] at hn
    obtain ⟨hk0, hrest⟩ := hn
    simp only [List.foldl_cons]
    rcases List.mem_cons.mp hmem with hh | hh
    · -- the item is the head of the record
      subst hh
      cases hstep : mergeStep (acc, n) (k, v) with
      | mk acc1 n1 =>
        have hknot : k ∉ keysOf rest := hk0
        unfold mergeStep at hstep
        rw [if_neg hns] at hstep
        constructor
        · intro hcase
          have hacc1 : getKey acc1 k = some v := by
            rcases hcase with hnone | ⟨old, hold, hcond⟩
            · simp only [hnone] at hstep
              injection hstep with ha _
              rw [← ha, setKey_getKey_self]
            · simp only [hold, if_pos hcond] at hstep
              injection hstep with ha _
              rw [← ha, setKey_getKey_self]
          rw [foldl_mergeStep_getKey_notmem rest acc1 n1 k hknot, hacc1]
        · intro old hold hcond
          simp only [hold, if_neg hcond] at hstep
          injection hstep with ha _
          rw [foldl_mergeStep_getKey_notmem rest acc1 n1 k hknot, ← ha, hold]
    · -- the item is in the tail
      have hne : k ≠ hd.1 := by
        intro he
        exact hk0 (he ▸ List.mem_map.mpr ⟨(k, v), hh, rfl⟩)
      cases hstep : mergeStep (acc, n) hd with
      | mk acc1 n1 =>
        have h2 : getKey acc1 k = getKey acc k := by
          have h3 := mergeStep_getKey_ne (acc, n) hd k hne
          rw [hstep] at h3
          exact h3
        have := ih acc1 n1 k v hrest hh hns
        rw [h2] at this
        exact this

theorem foldl_mergeStep_snd (record : Rec) :
    ∀ (acc : Rec) (n : Nat), (keysOf record).Nodup →
    (record.foldl mergeStep (acc, n)).2 = n + record.countP (adoptCond acc) := by
  induction record with
  | nil => intro acc n _; simp
  | cons hd rest ih =>
    intro acc n hn
    simp only [keysOf, List.map_cons, List.nodup_cons] at hn
    obtain ⟨hk0, hrest⟩ := hn
    simp only [List.foldl_cons]
    cases hstep : mergeStep (acc, n) hd with
    | mk acc1 n1 =>
      rw [ih acc1 n1 hrest]
      have hcnt : rest.countP (adoptCond acc1) = rest.countP (adoptCond acc) := by
        apply List.countP_congr
        intro kv hkv
        have hne : kv.1 ≠ hd.1 := by
          intro he
          exact hk0 (he ▸ List.mem_map.mpr ⟨kv, hkv, rfl⟩)
        have h2 := mergeStep_getKey_ne (acc, n) hd kv.1 hne
        rw [hstep] at h2
        rw [adoptCond_congr acc1 acc kv h2]
      have hn1 : n1 = n + (if adoptCond acc hd then 1 else 0) := by
        have h2 := mergeStep_snd (acc, n) hd
        rw [hstep] at h2
        exact h2
      rw [hcnt, hn1, List.countP_cons]
      omega

theorem setKey_keys_sub (r : Rec) (k : String) (v : Val) :
    keysOf r ⊆ keysOf (setKey r k v) := by
  by_cases h : k ∈ keysOf r
  · rw [keysOf_setKey_mem r k v h]
    exact fun x hx => hx
  · rw [keysOf_setKey_notmem r k v h]
    exact List.subset_append_left _ _

theorem mergeStep_keys_sub (acc : Rec × Nat) (kv : String × Val) :
    keysOf acc.1 ⊆ keysOf (mergeStep acc kv).1 := by
  unfold mergeStep
  by_cases hs : kv.1 = snCol ∨ kv.1 = emailSendCol
  · simp [hs]
  · simp only [if_neg hs]
    cases hacc : getKey acc.1 kv.1 with
    | none => simpa using setKey_keys_sub acc.1 kv.1 kv.2
    | some old =>
      by_cases hcond : old.isEmptyV && kv.2.hasValue
      · simpa [hcond] using setKey_keys_sub acc.1 kv.1 kv.2
      · simp [hcond]

theorem foldl_mergeStep_keys_sub (record : Rec) :
    ∀ (acc : Rec) (n : Nat), keysOf acc ⊆ keysOf (record.foldl mergeStep (acc, n)).1 := by
  induction record with
  | nil => intro acc n; exact fun x hx => hx
  | cons hd rest ih =>
    intro acc n
    simp only [List.foldl_cons]
    cases hstep : mergeStep (acc, n) hd with
    | mk acc1 n1 =>
      have h1 : keysOf acc ⊆ keysOf acc1 := by
        have h2 := mergeStep_keys_sub (acc, n) hd
        rw [hstep] at h2
        exact h2
      exact h1.trans (ih acc1 n1)

theorem foldl_mergeStep_keys_of_mem (record : Rec) :
    ∀ (acc : Rec) (n : Nat) (k : String) (v : Val), (k, v) ∈ record →
    ¬ (k = snCol ∨ k = emailSendCol) →
    k ∈ keysOf (record.foldl mergeStep (acc, n)).1 := by
  induction record with
  | nil => intro acc n k v h _; simp at h
  | cons hd rest ih =>
    intro acc n k v hmem hns
    simp only [List.foldl_cons]
    rcases List.mem_cons.mp hmem with h | h
    · subst h
      cases hstep : mergeStep (acc, n) (k, v) with
      | mk acc1 n1 =>
        have hk1 : k ∈ keysOf acc1 := by
          have hin : k ∈ keysOf (mergeStep (acc, n) (k, v)).1 := by
            unfold mergeStep
            simp only [if_neg hns]
            cases hacc : getKey acc k with
            | none =>
              exact getKey_mem_keysOf _ _ _ (setKey_getKey_self acc k v)
            | some old =>
              by_cases hcond : old.isEmptyV && v.hasValue
              · simp only [if_pos hcond]
                exact getKey_mem_keysOf _ _ _ (setKey_getKey_self acc k v)
              · simp only [if_neg hcond]
                exact getKey_mem_keysOf _ _ _ hacc
          rw [hstep] at hin
          exact hin
        exact foldl_mergeStep_keys_sub rest acc1 n1 hk1
    · cases hstep : mergeStep (acc, n) hd with
      | mk acc1 n1 => exact ih acc1 n1 k v h hns

theorem ensureApolloColumns_rows (st : Store) (cols : List String) :
    (ensureApolloColumns st cols).rows = st.rows := rfl

theorem ensureApolloColumns_nextSn (st : Store) (cols : List String) :
    (ensureApolloColumns st cols).nextSn = st.nextSn := rfl

theorem foldl_addcol_mem (cols : List String) :
    ∀ (acc : List String) (c : String),
    c ∈ cols.foldl (fun acc c => if acc.contains c then acc else acc ++ [c]) acc ↔
      c ∈ acc ∨ c ∈ cols := by
  induction cols with
  | nil => intro acc c; simp
  | cons c0 rest ih =>
    intro acc c
    simp only [List.foldl_cons]
    by_cases hc : acc.contains c0
    · rw [if_pos hc, ih]
      have hc0 : c0 ∈ acc := by simpa using hc
      constructor
      · rintro (h | h)
        · exact Or.inl h
        · exact Or.inr (List.mem_cons_of_mem _ h)
      · rintro (h | h)
        · exact Or.inl h
        · rcases List.mem_cons.mp h with h | h
          · exact Or.inl (h ▸ hc0)
          · exact Or.inr h
    · rw [if_neg hc, ih]
      simp only [List.mem_append, List.mem_singleton, List.mem_cons]
      tauto

theorem ensureApolloColumns_mem (st : Store) (cols : List String) (c : String) :
    c ∈ (ensureApolloColumns st cols).columns ↔ c ∈ st.columns ∨ c ∈ cols :=
  foldl_addcol_mem cols st.columns c

theorem foldl_addcol_nodup (cols : List String) :
    ∀ (acc : List String), acc.Nodup →
    (cols.foldl (fun acc c => if acc.contains c then acc else acc ++ [c]) acc).Nodup := by
  induction cols with
  | nil => intro acc h; exact h
  | cons c0 rest ih =>
    intro acc h
    simp only [List.foldl_cons]
    by_cases hc : acc.contains c0
    · rw [if_pos hc]
      exact ih acc h
    · rw [if_neg hc]
      apply ih
      have hc0 : c0 ∉ acc := by simpa using hc
      simp [List.nodup_append, h, hc0]

theorem ensureApolloColumns_columns_nodup (st : Store) (cols : List String)
    (h : st.columns.Nodup) : (ensureApolloColumns st cols).columns.Nodup :=
  foldl_addcol_nodup cols st.columns h

theorem getKey_mapSelf (l : List String) (f : String → Val) (k : String) :
    getKey (l.map (fun c => (c, f c))) k = if k ∈ l then some (f k) else none := by
  induction l with
  | nil => simp [getKey]
  | cons c rest ih =>
    by_cases hc : c = k
    · subst hc
      simp [getKey]
    · simp only [List.map_cons, getKey, if_neg hc, ih]
      have hne : ¬ k = c := fun he => hc he.symm
      have hmm : (k ∈ c :: rest) ↔ (k ∈ rest) := by simp [List.mem_cons, hne]
      simp [hmm]

theorem materialize_getKey (st : Store) (r : Rec) (k : String) :
    getKey (materialize st r) k =
      if k ∈ st.columns ∧ k ≠ snCol then some ((getKey r k).getD .vnone) else none := by
  unfold materialize
  rw [getKey_mapSelf]
  have : (k ∈ st.columns.filter (fun c => c ≠ snCol)) ↔ (k ∈ st.columns ∧ k ≠ snCol) := by
    simp [List.mem_filter]
  by_cases h : k ∈ st.columns ∧ k ≠ snCol
  · rw [if_pos (this.mpr h), if_pos h]
  · rw [if_neg (fun hh => h (this.mp hh)), if_neg h]

theorem keysOf_materialize (st : Store) (r : Rec) :
    keysOf (materialize st r) = st.columns.filter (fun c => c ≠ snCol) := by
  unfold materialize keysOf
  rw [List.map_map]
  have hid : (Prod.fst ∘ fun c => (c, (getKey r c).getD Val.vnone)) = id := rfl
  rw [hid, List.map_id]

theorem setEntries_getKey_notmem (entries : Rec) :
    ∀ (r : Rec) (k : String), k ∉ keysOf entries →
    getKey (setEntries r entries) k = getKey r k := by
  induction entries with
  | nil => intro r k _; rfl
  | cons hd rest ih =>
    intro r k hk
    simp only [keysOf, List.map_cons, List.mem_cons] at hk
    push_neg at hk
    unfold setEntries
    simp only [List.foldl_cons]
    have := ih (setKey r hd.1 hd.2) k hk.2
    unfold setEntries at this
    rw [this, setKey_getKey_ne r hd.1 k hd.2 hk.1]

theorem setEntries_getKey_mem (entries : Rec) :
    ∀ (r : Rec) (k : String) (v : Val), (keysOf entries).Nodup →
    getKey entries k = some v →
    getKey (setEntries r entries) k = some v := by
  induction entries with
  | nil => intro r k v _ h; simp [getKey] at h
  | cons hd rest ih =>
    intro r k v hn h
    obtain ⟨k0, v0⟩ := hd
    simp only [keysOf, List.map_cons, List.nodup_cons] at hn
    unfold setEntries
    simp only [List.foldl_cons]
    by_cases hk : k0 = k
    · subst hk
      rw [getKey_cons, if_pos rfl] at h
      injection h with hv
      subst hv
      have h2 := setEntries_getKey_notmem rest (setKey r k0 v0) k0 hn.1
      unfold setEntries at h2
      rw [h2, setKey_getKey_self]
    · rw [getKey_cons, if_neg hk] at h
      have := ih (setKey r k0 v0) k v hn.2 h
      unfold setEntries at this
      rw [this]

theorem setKey_keys_nodup (r : Rec) (k : String) (v : Val)
    (h : (keysOf r).Nodup) : (keysOf (setKey r k v)).Nodup := by
  by_cases hm : k ∈ keysOf r
  · rw [keysOf_setKey_mem r k v hm]
    exact h
  · rw [keysOf_setKey_notmem r k v hm]
    simp [List.nodup_append, h, hm]

theorem mergeStep_keys_nodup (acc : Rec × Nat) (kv : String × Val)
    (h : (keysOf acc.1).Nodup) : (keysOf (mergeStep acc kv).1).Nodup := by
  unfold mergeStep
  by_cases hs : kv.1 = snCol ∨ kv.1 = emailSendCol
  · simpa [hs] using h
  · simp only [if_neg hs]
    cases hacc : getKey acc.1 kv.1 with
    | none => exact setKey_keys_nodup acc.1 kv.1 kv.2 h
    | some old =>
      by_cases hcond : old.isEmptyV && kv.2.hasValue
      · simpa [hcond] using setKey_keys_nodup acc.1 kv.1 kv.2 h
      · simpa [hcond] using h

theorem foldl_mergeStep_keys_nodup (record : Rec) :
    ∀ (acc : Rec) (n : Nat), (keysOf acc).Nodup →
    (keysOf (record.foldl mergeStep (acc, n)).1).Nodup := by
  induction record with
  | nil => intro acc n h; exact h
  | cons hd rest ih =>
    intro acc n h
    simp only [List.foldl_cons]
    cases hstep : mergeStep (acc, n) hd with
    | mk acc1 n1 =>
      have h1 : (keysOf acc1).Nodup := by
        have h2 := mergeStep_keys_nodup (acc, n) hd h
        rw [hstep] at h2
        exact h2
      exact ih acc1 n1 h1

theorem find?_fst_of_mem_nodup (l : List (Nat × Rec)) (sn : Nat) (r : Rec)
    (hn : (l.map Prod.fst).Nodup) (h : (sn, r) ∈ l) :
    l.find? (fun p => decide (p.1 = sn)) = some (sn, r) := by
  induction l with
  | nil => simp at h
  | cons hd t ih =>
    obtain ⟨sn0, r0⟩ := hd
    simp only [List.map_cons, List.nodup_cons] at hn
    rcases List.mem_cons.mp h with h | h
    · injection h.symm with h1 h2
      subst h1
      subst h2
      simp [List.find?_cons]
    · have hne : sn0 ≠ sn := by
        intro he
        exact hn.1 (he ▸ List.mem_map.mpr ⟨(sn, r), h, rfl⟩)
      rw [List.find?_cons]
      simp only [decide_eq_false hne]
      exact ih hn.2 h

theorem find?_fst_map_pres (l : List (Nat × Rec)) (g : Nat × Rec → Nat × Rec)
    (pred : Nat → Bool) (hg : ∀ p, (g p).1 = p.1) :
    (l.map g).find? (fun p => pred p.1) = (l.find? (fun p => pred p.1)).map g := by
  induction l with
  | nil => rfl
  | cons a t ih =>
    simp only [List.map_cons]
    rw [List.find?_cons, List.find?_cons, hg a]
    by_cases hp : pred a.1
    · simp [hp]
    · simp only [Bool.not_eq_true] at hp
      simp [hp, ih]

theorem find?_append_none {α : Type} (l1 l2 : List α) (p : α → Bool)
    (h : l1.find? p = none) : (l1 ++ l2).find? p = l2.find? p := by
  rw [List.find?_append, h]
  rfl

end Db

theorem mem_of_getKey (r : Rec) (k : String) (v : Val)
    (h : getKey r k = some v) : (k, v) ∈ r := by
  induction r with
  | nil => simp [getKey] at h
  | cons hd t ih =>
    obtain ⟨k', v'⟩ := hd
    rw [getKey_cons] at h
    by_cases hk : k' = k
    · rw [if_pos hk] at h
      injection h with hv
      subst hk
      subst hv
      exact List.mem_cons_self _ _
    · rw [if_neg hk] at h
      exact List.mem_cons_of_mem _ (ih h)

theorem getKey_isSome_of_mem (r : Rec) (k : String) (h : k ∈ keysOf r) :
    ∃ v, getKey r k = some v := by
  induction r with
  | nil => simp [keysOf] at h
  | cons hd t ih =>
    obtain ⟨k', v'⟩ := hd
    by_cases hk : k' = k
    · exact ⟨v', by simp [getKey, hk]⟩
    · have : k ∈ keysOf t := by
        simp only [keysOf, List.map_cons, List.mem_cons] at h
        rcases h with h | h
        · exact absurd h.symm hk
        · exact h
      obtain ⟨v, hv⟩ := ih this
      exact ⟨v, by simp [getKey, hk, hv]⟩

theorem keysOf_eraseKey (r : Rec) (k : String) :
    keysOf (eraseKey r k) = (keysOf r).filter (fun x => x ≠ k) := by
  induction r with
  | nil => rfl
  | cons hd t ih =>
    obtain ⟨k', v'⟩ := hd
    simp only [ne_eq, decide_not, keysOf] at ih ⊢
    by_cases hk : k' = k
    · simp [eraseKey, hk, keysOf, ih]
    · simp [eraseKey, hk, keysOf, ih]

theorem setKey_keys_sup (r : Rec) (k : String) (v : Val) :
    keysOf (setKey r k v) ⊆ keysOf r ++ [k] := by
  by_cases h : k ∈ keysOf r
  · rw [keysOf_setKey_mem r k v h]
    exact List.subset_append_left _ _
  · rw [keysOf_setKey_notmem r k v h]
    exact fun x hx => hx

namespace Db

theorem mergeStep_keys_sup (acc : Rec × Nat) (kv : String × Val) :
    keysOf (mergeStep acc kv).1 ⊆ keysOf acc.1 ++ [kv.1] := by
  unfold mergeStep
  by_cases hs : kv.1 = snCol ∨ kv.1 = emailSendCol
  · simp only [if_pos hs]
    exact List.subset_append_left _ _
  · simp only [if_neg hs]
    cases hacc : getKey acc.1 kv.1 with
    | none => exact setKey_keys_sup acc.1 kv.1 kv.2
    | some old =>
      by_cases hcond : old.isEmptyV && kv.2.hasValue
      · simp only [if_pos hcond]
        exact setKey_keys_sup acc.1 kv.1 kv.2
      · simp only [if_neg hcond]
        exact List.subset_append_left _ _

theorem foldl_mergeStep_keys_sup (record : Rec) :
    ∀ (acc : Rec) (n : Nat) (k : String),
    k ∈ keysOf (record.foldl mergeStep (acc, n)).1 →
    k ∈ keysOf acc ∨ k ∈ keysOf record := by
  induction record with
  | nil => intro acc n k h; exact Or.inl h
  | cons hd rest ih =>
    intro acc n k h
    simp only [List.foldl_cons] at h
    cases hstep : mergeStep (acc, n) hd with
    | mk acc1 n1 =>
      rw [hstep] at h
      rcases ih acc1 n1 k h with h1 | h1
      · have h2 := mergeStep_keys_sup (acc, n) hd
        rw [hstep] at h2
        rcases List.mem_append.mp (h2 h1) with h3 | h3
        · exact Or.inl h3
        · have : k = hd.1 := List.mem_singleton.mp h3
          right
          rw [this]
          exact List.mem_map.mpr ⟨hd, List.mem_cons_self _ _, rfl⟩
      · right
        simp only [keysOf, List.map_cons]
        exact List.mem_cons_of_mem _ h1

theorem upsert_record_existing (now : String) (st : Store) (record : Rec)
    (e : String) (sn : Nat) (stored : Rec)
    (h1 : getKey record emailCol = some (.vstr e)) (h2 : e ≠ "")
    (h3 : getExisting st e = some (sn, stored)) :
    upsert_record now st record =
      (if (mergeFold (materialize st stored) record).2 = 0 then .ok (sn, .skip, st)
       else
         match updateRecord st sn
             (setKey (mergeFold (materialize st stored) record).1 updCol (.vstr now)) with
         | .ok st2 => .ok (sn, .update, st2)
         | .error msg => .error msg) := by
  simp only [upsert_record, h1, h3, if_neg h2]

theorem upsert_record_new (now : String) (st : Store) (record : Rec) (e : String)
    (h1 : getKey record emailCol = some (.vstr e)) (h2 : e ≠ "")
    (h3 : getExisting st e = none) :
    upsert_record now st record =
      (match insertRecord st (insertPayload now record) with
       | .ok p => .ok (p.1, .insert, p.2)
       | .error msg => .error msg) := by
  simp only [upsert_record, h1, h3, if_neg h2]

theorem insertRecord_ok (st : Store) (record : Rec)
    (hall : ∀ k ∈ keysOf record, k ≠ snCol → k ∈ st.columns ∨ isApolloCol k) :
    insertRecord st record =
      .ok (st.nextSn,
        { columns := (ensureApolloColumns st (apolloColsOf (eraseKey record snCol))).columns,
          rows := st.rows ++ [(st.nextSn, eraseKey record snCol)],
          nextSn := st.nextSn + 1 }) := by
  unfold insertRecord
  have hcond : (keysOf (eraseKey record snCol)).all
      (fun k => (ensureApolloColumns st (apolloColsOf (eraseKey record snCol))).columns.contains k) = true := by
    rw [List.all_eq_true]
    intro k hk
    have hk0 := hk
    rw [keysOf_eraseKey] at hk0
    have hk2 := List.mem_filter.mp hk0
    have hkm : k ∈ keysOf record := hk2.1
    have hkn : k ≠ snCol := by simpa using hk2.2
    have hmem : k ∈ (ensureApolloColumns st (apolloColsOf (eraseKey record snCol))).columns := by
      rcases hall k hkm hkn with h | h
      · exact (ensureApolloColumns_mem st _ k).mpr (Or.inl h)
      · refine (ensureApolloColumns_mem st _ k).mpr (Or.inr ?_)
        unfold apolloColsOf
        exact List.mem_filter.mpr ⟨hk, by simpa using h⟩
    simpa using hmem
  simp only [hcond, if_true]
  rfl

theorem updateRecord_ok (st : Store) (sn : Nat) (record : Rec)
    (hall : ∀ k ∈ keysOf record, k ≠ snCol → k ∈ st.columns ∨ isApolloCol k) :
    updateRecord st sn record =
      .ok { columns := (ensureApolloColumns st (apolloColsOf record)).columns,
            rows := st.rows.map
              (fun p => if p.1 = sn then (p.1, setEntries p.2 (eraseKey record snCol)) else p),
            nextSn := st.nextSn } := by
  unfold updateRecord
  have hcond : (keysOf (eraseKey record snCol)).all
      (fun k => (ensureApolloColumns st (apolloColsOf record)).columns.contains k) = true := by
    rw [List.all_eq_true]
    intro k hk
    rw [keysOf_eraseKey] at hk
    have hk2 := List.mem_filter.mp hk
    have hkm : k ∈ keysOf record := hk2.1
    have hkn : k ≠ snCol := by simpa using hk2.2
    have hmem : k ∈ (ensureApolloColumns st (apolloColsOf record)).columns := by
      rcases hall k hkm hkn with h | h
      · exact (ensureApolloColumns_mem st _ k).mpr (Or.inl h)
      · refine (ensureApolloColumns_mem st _ k).mpr (Or.inr ?_)
        unfold apolloColsOf
        exact List.mem_filter.mpr ⟨hkm, by simpa using h⟩
    simpa using hmem
  simp only [hcond, if_true]
  rfl

/-- C1: when the natural key of the incoming record already exists in the
store, `upsert_record` merges field by field, adopting the incoming value
exactly when the existing cell is empty and the incoming value is non-empty;
a populated existing cell is always kept; zero filled fields is a NO-OP
with no write and the existing identifier returned; at least one filled
field is an UPDATE written under the existing identifier with a freshly
stamped timestamp. -/
theorem upsert_record_fill_only_if_empty
    (now : String) (st : Store) (record : Rec) (e : String) (sn : Nat) (stored : Rec)
    (h1 : getKey record emailCol = some (.vstr e)) (h2 : e ≠ "")
    (h3 : getExisting st e = some (sn, stored))
    (hkeys : (keysOf record).Nodup)
    (hcols : ∀ k ∈ keysOf record, k ∈ st.columns ∨ isApolloCol k = true)
    (hupdm : updCol ∈ st.columns)
    (hcolnd : st.columns.Nodup)
    (hrows : (st.rows.map Prod.fst).Nodup) :
    C1Conclusion now st record sn stored := by
  have hmatnd : (keysOf (materialize st stored)).Nodup := by
    rw [keysOf_materialize]
    exact hcolnd.filter _
  refine ⟨?_, ?_, ?_, ?_, ?_, ?_⟩
  · -- (i) adopt when existing empty and incoming non-empty
    intro k v hv hks hke hemp hval
    have hmem : (k, v) ∈ record := mem_of_getKey record k v hv
    have hns : ¬ (k = snCol ∨ k = emailSendCol) := by tauto
    refine (foldl_mergeStep_getKey_fill record (materialize st stored) 0 k v hkeys hmem hns).1 ?_
    cases hg : getKey (materialize st stored) k with
    | none => exact Or.inl rfl
    | some old =>
      right
      refine ⟨old, rfl, ?_⟩
      rw [hg] at hemp
      have hoe : old.isEmptyV = true := hemp
      simp [hoe, hval]
  · -- (ii) non-empty existing values are kept
    intro k old hold hval
    unfold mergeFold
    by_cases hks : k = snCol ∨ k = emailSendCol
    · rw [foldl_mergeStep_getKey_protected record (materialize st stored) 0 k hks]
      exact hold
    · by_cases hkm : k ∈ keysOf record
      · obtain ⟨v, hv⟩ := getKey_isSome_of_mem record k hkm
        have hmem : (k, v) ∈ record := mem_of_getKey record k v hv
        refine (foldl_mergeStep_getKey_fill record (materialize st stored) 0 k v hkeys hmem hks).2 old hold ?_
        have : old.isEmptyV = false := by
          unfold Val.hasValue at hval
          cases hoe : old.isEmptyV
          · rfl
          · rw [hoe] at hval
            simp at hval
        simp [this]
      · rw [foldl_mergeStep_getKey_notmem record (materialize st stored) 0 k hkm]
        exact hold
  · -- (iii) no mandated adoption: cell kept, or stays empty
    intro k v hv hks hke hncond
    unfold mergeFold
    have hmem : (k, v) ∈ record := mem_of_getKey record k v hv
    have hns : ¬ (k = snCol ∨ k = emailSendCol) := by tauto
    cases hg : getKey (materialize st stored) k with
    | none =>
      right
      have hvempty : v.isEmptyV = true := by
        by_contra hvv
        have hvv2 : v.hasValue = true := by
          unfold Val.hasValue
          cases hb : v.isEmptyV
          · rfl
          · exact absurd hb hvv
        exact hncond ⟨by rw [hg]; rfl, hvv2⟩
      refine ⟨rfl, ?_⟩
      have hfill := (foldl_mergeStep_getKey_fill record (materialize st stored) 0 k v hkeys hmem hns).1 (Or.inl hg)
      rw [hfill]
      exact hvempty
    | some old =>
      left
      have hcond : ¬ (old.isEmptyV && v.hasValue) = true := by
        intro hc
        have h1c := (Bool.and_eq_true _ _).mp hc
        exact hncond ⟨by rw [hg]; exact h1c.1, h1c.2⟩
      have hkeep := (foldl_mergeStep_getKey_fill record (materialize st stored) 0 k v hkeys hmem hns).2 old hg hcond
      rw [hkeep]
  · -- (iv) fill counter
    unfold mergeFold
    rw [foldl_mergeStep_snd record (materialize st stored) 0 hkeys]
    omega
  · -- (v) NO-OP
    intro hm
    rw [upsert_record_existing now st record e sn stored h1 h2 h3, if_pos hm]
  · -- (vi) UPDATE
    intro hm
    have hall : ∀ k ∈ keysOf (setKey (mergeFold (materialize st stored) record).1 updCol (.vstr now)),
        k ≠ snCol → k ∈ st.columns ∨ isApolloCol k = true := by
      intro k hk _
      rcases List.mem_append.mp (setKey_keys_sup _ updCol (.vstr now) hk) with hk1 | hk1
      · rcases foldl_mergeStep_keys_sup record (materialize st stored) 0 k hk1 with hk2 | hk2
        · rw [keysOf_materialize] at hk2
          exact Or.inl (List.mem_filter.mp hk2).1
        · exact hcols k hk2
      · left
        rw [List.mem_singleton.mp hk1]
        exact hupdm
    have hmem : (sn, stored) ∈ st.rows := List.mem_of_find?_eq_some h3
    have hrupd := updateRecord_ok st sn
      (setKey (mergeFold (materialize st stored) record).1 updCol (.vstr now)) hall
    have hupseq := upsert_record_existing now st record e sn stored h1 h2 h3
    rw [if_neg hm, hrupd] at hupseq
    refine ⟨_, hupseq, ?_, ?_, ?_⟩
    · -- the freshly stamped timestamp
      unfold obsVal rowOf
      have hfind := find?_fst_map_pres st.rows
        (fun p => if p.1 = sn then (p.1, setEntries p.2 (eraseKey (setKey (mergeFold (materialize st stored) record).1 updCol (.vstr now)) snCol)) else p)
        (fun n => decide (n = sn)) (fun p => by by_cases h : p.1 = sn <;> simp [h])
      simp only at hfind
      rw [hfind, find?_fst_of_mem_nodup st.rows sn stored hrows hmem]
      simp only [Option.map_map, Option.map_some]
      have hentnd : (keysOf (eraseKey (setKey (mergeFold (materialize st stored) record).1 updCol (.vstr now)) snCol)).Nodup := by
        rw [keysOf_eraseKey]
        refine List.Nodup.filter _ ?_
        exact setKey_keys_nodup _ updCol (.vstr now)
          (foldl_mergeStep_keys_nodup record (materialize st stored) 0 hmatnd)
      have hget : getKey (eraseKey (setKey (mergeFold (materialize st stored) record).1 updCol (.vstr now)) snCol) updCol = some (.vstr now) := by
        rw [getKey_eraseKey_ne _ snCol updCol (by decide)]
        exact setKey_getKey_self _ updCol (.vstr now)
      have := setEntries_getKey_mem _ stored updCol (.vstr now) hentnd hget
      simp [this]
    · -- identifiers of the rows unchanged
      simp only [List.map_map]
      simp [Function.comp]
      intro a b _
      by_cases h : a = sn <;> simp [h]
    · -- the merged values are written
      intro k v hkv hku hks
      unfold obsVal rowOf
      have hfind := find?_fst_map_pres st.rows
        (fun p => if p.1 = sn then (p.1, setEntries p.2 (eraseKey (setKey (mergeFold (materialize st stored) record).1 updCol (.vstr now)) snCol)) else p)
        (fun n => decide (n = sn)) (fun p => by by_cases h : p.1 = sn <;> simp [h])
      simp only at hfind
      rw [hfind, find?_fst_of_mem_nodup st.rows sn stored hrows hmem]
      simp only [Option.map_map, Option.map_some]
      have hentnd : (keysOf (eraseKey (setKey (mergeFold (materialize st stored) record).1 updCol (.vstr now)) snCol)).Nodup := by
        rw [keysOf_eraseKey]
        refine List.Nodup.filter _ ?_
        exact setKey_keys_nodup _ updCol (.vstr now)
          (foldl_mergeStep_keys_nodup record (materialize st stored) 0 hmatnd)
      have hget : getKey (eraseKey (setKey (mergeFold (materialize st stored) record).1 updCol (.vstr now)) snCol) k = some v := by
        rw [getKey_eraseKey_ne _ snCol k hks, setKey_getKey_ne _ updCol k (.vstr now) hku]
        exact hkv
      have := setEntries_getKey_mem _ stored k v hentnd hget
      simp [this]

/-- Witness for C1 at a concrete store and record. -/
theorem upsert_record_fill_only_if_empty_witness :
    C1Conclusion "2026-02-03T00:00:00Z" c1Store c1Record 1 c1Row :=
  upsert_record_fill_only_if_empty "2026-02-03T00:00:00Z" c1Store c1Record
    "jane@acme.com" 1 c1Row (by decide) (by decide) (by decide) (by decide)
    (by decide) (by decide) (by decide) (by decide)

theorem insertPayload_keys_sub (now : String) (record : Rec) :
    keysOf record ⊆ keysOf (insertPayload now record) := by
  unfold insertPayload
  by_cases hp : (getKey (setKey record updCol (.vstr now)) emailSendCol).isSome
  · simpa [hp] using setKey_keys_sub record updCol (.vstr now)
  · simp only [hp, Bool.false_eq_true, if_false]
    exact (setKey_keys_sub record updCol (.vstr now)).trans
      (setKey_keys_sub _ emailSendCol (.vstr "No"))

theorem insertPayload_keys_sup (now : String) (record : Rec) :
    keysOf (insertPayload now record) ⊆ (keysOf record ++ [updCol]) ++ [emailSendCol] := by
  unfold insertPayload
  by_cases hp : (getKey (setKey record updCol (.vstr now)) emailSendCol).isSome
  · simp only [hp, if_true]
    exact (setKey_keys_sup record updCol (.vstr now)).trans (List.subset_append_left _ _)
  · simp only [hp, Bool.false_eq_true, if_false]
    refine (setKey_keys_sup _ emailSendCol (.vstr "No")).trans ?_
    intro x hx
    rcases List.mem_append.mp hx with hx | hx
    · exact List.mem_append.mpr (Or.inl (setKey_keys_sup record updCol (.vstr now) hx))
    · exact List.mem_append.mpr (Or.inr hx)

theorem insertPayload_getKey_ne (now : String) (record : Rec) (k : String)
    (hu : k ≠ updCol) (hs : k ≠ emailSendCol) :
    getKey (insertPayload now record) k = getKey record k := by
  unfold insertPayload
  by_cases hp : (getKey (setKey record updCol (.vstr now)) emailSendCol).isSome
  · simp only [hp, if_true]
    exact setKey_getKey_ne record updCol k (.vstr now) hu
  · simp only [hp, Bool.false_eq_true, if_false]
    rw [setKey_getKey_ne _ emailSendCol k (.vstr "No") hs]
    exact setKey_getKey_ne record updCol k (.vstr now) hu

theorem insertPayload_getKey_upd (now : String) (record : Rec) :
    getKey (insertPayload now record) updCol = some (.vstr now) := by
  unfold insertPayload
  by_cases hp : (getKey (setKey record updCol (.vstr now)) emailSendCol).isSome
  · simp only [hp, if_true]
    exact setKey_getKey_self record updCol (.vstr now)
  · simp only [hp, Bool.false_eq_true, if_false]
    rw [setKey_getKey_ne _ emailSendCol updCol (.vstr "No") (by decide)]
    exact setKey_getKey_self record updCol (.vstr now)

theorem insertPayload_getKey_send (now : String) (record : Rec) :
    getKey (insertPayload now record) emailSendCol =
      some ((getKey record emailSendCol).getD (.vstr "No")) := by
  unfold insertPayload
  have hr1 : getKey (setKey record updCol (.vstr now)) emailSendCol =
      getKey record emailSendCol :=
    setKey_getKey_ne record updCol emailSendCol (.vstr now) (by decide)
  by_cases hp : (getKey (setKey record updCol (.vstr now)) emailSendCol).isSome
  · simp only [hp, if_true]
    rw [hr1]
    rw [hr1] at hp
    obtain ⟨w, hw⟩ := Option.isSome_iff_exists.mp hp
    rw [hw]
    rfl
  · simp only [hp, Bool.false_eq_true, if_false]
    rw [hr1] at hp
    have hnone : getKey record emailSendCol = none := by
      cases hg : getKey record emailSendCol
      · rfl
      · rw [hg] at hp
        simp at hp
    rw [setKey_getKey_self, hnone]
    rfl

/-- C2: upserting the same record twice, starting from a store that does not
contain its natural key, yields INSERT then NO-OP; the identifier is the one
assigned at insert time and the entire stored state is unchanged by the
second call. -/
theorem upsert_record_idempotent
    (now1 now2 : String) (st : Store) (record : Rec) (e : String)
    (h1 : getKey record emailCol = some (.vstr e)) (h2 : e ≠ "")
    (h3 : getExisting st e = none)
    (hkeys : (keysOf record).Nodup)
    (hcols : ∀ k ∈ keysOf record, k ∈ st.columns ∨ isApolloCol k = true)
    (hupdm : updCol ∈ st.columns) (hsendm : emailSendCol ∈ st.columns) :
    ∃ st2, upsert_record now1 st record = .ok (st.nextSn, .insert, st2) ∧
      upsert_record now2 st2 record = .ok (st.nextSn, .skip, st2) := by
  have hall2 : ∀ k ∈ keysOf (insertPayload now1 record), k ≠ snCol →
      k ∈ st.columns ∨ isApolloCol k = true := by
    intro k hk _
    rcases List.mem_append.mp (insertPayload_keys_sup now1 record hk) with hk1 | hk1
    · rcases List.mem_append.mp hk1 with hk2 | hk2
      · exact hcols k hk2
      · left
        rw [List.mem_singleton.mp hk2]
        exact hupdm
    · left
      rw [List.mem_singleton.mp hk1]
      exact hsendm
  have hins := upsert_record_new now1 st record e h1 h2 h3
  rw [insertRecord_ok st (insertPayload now1 record) hall2] at hins
  refine ⟨_, hins, ?_⟩
  have hrce : getKey (eraseKey (insertPayload now1 record) snCol) emailCol =
      some (.vstr e) := by
    rw [getKey_eraseKey_ne _ snCol emailCol (by decide),
        insertPayload_getKey_ne now1 record emailCol (by decide) (by decide), h1]
  have h3b : getExisting
      { columns := (ensureApolloColumns st (apolloColsOf (eraseKey (insertPayload now1 record) snCol))).columns,
        rows := st.rows ++ [(st.nextSn, eraseKey (insertPayload now1 record) snCol)],
        nextSn := st.nextSn + 1 } e =
      some (st.nextSn, eraseKey (insertPayload now1 record) snCol) := by
    unfold getExisting at h3 ⊢
    simp only
    rw [find?_append_none st.rows _ _ h3, List.find?_cons]
    simp [hrce]
  have hskip := upsert_record_existing now2 _ record e st.nextSn _ h1 h2 h3b
  rw [hskip]
  have hcount : (mergeFold (materialize
      { columns := (ensureApolloColumns st (apolloColsOf (eraseKey (insertPayload now1 record) snCol))).columns,
        rows := st.rows ++ [(st.nextSn, eraseKey (insertPayload now1 record) snCol)],
        nextSn := st.nextSn + 1 } (eraseKey (insertPayload now1 record) snCol)) record).2 = 0 := by
    unfold mergeFold
    rw [foldl_mergeStep_snd record _ 0 hkeys]
    have hzero : record.countP (adoptCond (materialize
        { columns := (ensureApolloColumns st (apolloColsOf (eraseKey (insertPayload now1 record) snCol))).columns,
          rows := st.rows ++ [(st.nextSn, eraseKey (insertPayload now1 record) snCol)],
          nextSn := st.nextSn + 1 } (eraseKey (insertPayload now1 record) snCol))) = 0 := by
      rw [List.countP_eq_zero]
      rintro ⟨k, v⟩ hkv hadopt
      unfold adoptCond at hadopt
      simp only [Bool.and_eq_true] at hadopt
      obtain ⟨⟨ha1, ha2⟩, ha3⟩ := hadopt
      have hks : ¬ (k = snCol) ∧ ¬ (k = emailSendCol) := by simpa using ha1
      have hkm : k ∈ keysOf record := List.mem_map.mpr ⟨(k, v), hkv, rfl⟩
      have hgv : getKey record k = some v := getKey_of_mem_nodup record k v hkeys hkv
      have hkrc : k ∈ keysOf (eraseKey (insertPayload now1 record) snCol) := by
        rw [keysOf_eraseKey]
        refine List.mem_filter.mpr ⟨insertPayload_keys_sub now1 record hkm, by simpa using hks.1⟩
      have hkcols : k ∈ (ensureApolloColumns st (apolloColsOf (eraseKey (insertPayload now1 record) snCol))).columns := by
        rcases hcols k hkm with h | h
        · exact (ensureApolloColumns_mem st _ k).mpr (Or.inl h)
        · refine (ensureApolloColumns_mem st _ k).mpr (Or.inr ?_)
          unfold apolloColsOf
          exact List.mem_filter.mpr ⟨hkrc, by simpa using h⟩
      have hmat := materialize_getKey
        { columns := (ensureApolloColumns st (apolloColsOf (eraseKey (insertPayload now1 record) snCol))).columns,
          rows := st.rows ++ [(st.nextSn, eraseKey (insertPayload now1 record) snCol)],
          nextSn := st.nextSn + 1 } (eraseKey (insertPayload now1 record) snCol) k
      rw [if_pos ⟨hkcols, hks.1⟩] at hmat
      rw [hmat] at ha3
      simp only [Bool.and_eq_true] at ha3
      by_cases hku : k = updCol
      · have := ha3.2
        simp [hku] at this
      · rw [getKey_eraseKey_ne _ snCol k hks.1,
            insertPayload_getKey_ne now1 record k hku hks.2, hgv] at ha3
        have hv1 : v.isEmptyV = true := ha3.1
        unfold Val.hasValue at ha2
        rw [hv1] at ha2
        simp at ha2
    omega
  rw [if_pos hcount]

/-- Witness for C2 on a fresh store and a concrete record. -/
theorem upsert_record_idempotent_witness :
    ∃ st2, upsert_record "2026-01-01T00:00:00Z" initStore c2Record =
        .ok (initStore.nextSn, .insert, st2) ∧
      upsert_record "2026-01-02T00:00:00Z" st2 c2Record =
        .ok (initStore.nextSn, .skip, st2) :=
  upsert_record_idempotent "2026-01-01T00:00:00Z" "2026-01-02T00:00:00Z"
    initStore c2Record "bob@x.co" (by decide) (by decide) (by decide)
    (by decide) (by decide) (by decide) (by decide)

/-- C3: `upsert_record` never takes the protected column from the incoming
record: on insert it stores the incoming value if one is present and
defaults it to `"No"` otherwise, and on every merge into an existing row the
stored value of the protected column is preserved whatever the incoming
record carries. -/
theorem upsert_record_protected_column
    (now : String) (st : Store) (record : Rec) (e : String)
    (h1 : getKey record emailCol = some (.vstr e)) (h2 : e ≠ "")
    (hcolnd : st.columns.Nodup)
    (hrows : (st.rows.map Prod.fst).Nodup)
    (hsendm : emailSendCol ∈ st.columns) :
    (getExisting st e = none →
      (∀ p ∈ st.rows, p.1 ≠ st.nextSn) →
      ∀ sn a st2, upsert_record now st record = .ok (sn, a, st2) →
        a = .insert ∧ sn = st.nextSn ∧
        obsVal st2 st.nextSn emailSendCol =
          some ((getKey record emailSendCol).getD (.vstr "No"))) ∧
    (∀ sn stored, getExisting st e = some (sn, stored) →
      ∀ sn2 a st2, upsert_record now st record = .ok (sn2, a, st2) →
        sn2 = sn ∧ obsVal st2 sn emailSendCol = obsVal st sn emailSendCol) := by
  constructor
  · -- INSERT path
    intro h3 hninv sn a st2 hok
    rw [upsert_record_new now st record e h1 h2 h3] at hok
    cases hins : insertRecord st (insertPayload now record) with
    | error msg =>
      rw [hins] at hok
      simp at hok
    | ok p =>
      rw [hins] at hok
      simp only [Except.ok.injEq, Prod.mk.injEq] at hok
      obtain ⟨hsn, ha, hst⟩ := hok
      unfold insertRecord at hins
      dsimp only at hins
      split at hins
      · simp only [Except.ok.injEq] at hins
        subst hins
        refine ⟨ha.symm, hsn.symm, ?_⟩
        subst hst
        unfold obsVal rowOf
        simp only [ensureApolloColumns_rows, ensureApolloColumns_nextSn]
        rw [find?_append_none st.rows _ _ (List.find?_eq_none.mpr (by
          intro p hp
          simp [hninv p hp]))]
        rw [List.find?_cons]
        simp [getKey_eraseKey_ne _ snCol emailSendCol (by decide),
          insertPayload_getKey_send now record]
      · exact absurd hins (by simp)
  · -- merge path
    intro sn stored h3 sn2 a st2 hok
    have hmem : (sn, stored) ∈ st.rows := List.mem_of_find?_eq_some h3
    have hrowst : rowOf st sn = some stored := by
      unfold rowOf
      rw [find?_fst_of_mem_nodup st.rows sn stored hrows hmem]
      rfl
    rw [upsert_record_existing now st record e sn stored h1 h2 h3] at hok
    by_cases hm : (mergeFold (materialize st stored) record).2 = 0
    · rw [if_pos hm] at hok
      simp only [Except.ok.injEq, Prod.mk.injEq] at hok
      obtain ⟨hsn, _, hst⟩ := hok
      subst hst
      exact ⟨hsn.symm, rfl⟩
    · rw [if_neg hm] at hok
      cases hup : updateRecord st sn
          (setKey (mergeFold (materialize st stored) record).1 updCol (.vstr now)) with
      | error msg =>
        rw [hup] at hok
        simp at hok
      | ok stx =>
        rw [hup] at hok
        simp only [Except.ok.injEq, Prod.mk.injEq] at hok
        obtain ⟨hsn, _, hst⟩ := hok
        refine ⟨hsn.symm, ?_⟩
        subst hst
        unfold updateRecord at hup
        dsimp only at hup
        split at hup
        · simp only [Except.ok.injEq] at hup
          subst hup
          unfold obsVal rowOf
          simp only [ensureApolloColumns_rows]
          have hfind := find?_fst_map_pres st.rows
            (fun p => if p.1 = sn then
              (p.1, setEntries p.2 (eraseKey (setKey (mergeFold (materialize st stored) record).1 updCol (.vstr now)) snCol)) else p)
            (fun n => decide (n = sn)) (fun p => by by_cases h : p.1 = sn <;> simp [h])
          simp only at hfind
          rw [hfind, find?_fst_of_mem_nodup st.rows sn stored hrows hmem]
          simp only [Option.map_map, Option.map_some]
          have hmatnd : (keysOf (materialize st stored)).Nodup := by
            rw [keysOf_materialize]
            exact hcolnd.filter _
          have hentnd : (keysOf (eraseKey (setKey (mergeFold (materialize st stored) record).1 updCol (.vstr now)) snCol)).Nodup := by
            rw [keysOf_eraseKey]
            refine List.Nodup.filter _ ?_
            exact setKey_keys_nodup _ updCol (.vstr now)
              (foldl_mergeStep_keys_nodup record (materialize st stored) 0 hmatnd)
          have hmats : getKey (materialize st stored) emailSendCol =
              some ((getKey stored emailSendCol).getD .vnone) := by
            rw [materialize_getKey, if_pos ⟨hsendm, by decide⟩]
          have hget : getKey (eraseKey (setKey (mergeFold (materialize st stored) record).1 updCol (.vstr now)) snCol) emailSendCol =
              some ((getKey stored emailSendCol).getD .vnone) := by
            rw [getKey_eraseKey_ne _ snCol emailSendCol (by decide),
                setKey_getKey_ne _ updCol emailSendCol (.vstr now) (by decide)]
            unfold mergeFold
            rw [foldl_mergeStep_getKey_protected record (materialize st stored) 0
              emailSendCol (Or.inr rfl)]
            exact hmats
          have := setEntries_getKey_mem _ stored emailSendCol _ hentnd hget
          simp [this]
        · exact absurd hup (by simp)

/-- Witness for C3: the stored `"Yes"` survives an upsert carrying `"No"`
even though another field of the row is updated. -/
theorem upsert_record_protected_column_witness :
    ∃ sn2 a st2,
      upsert_record "2026-01-05T00:00:00Z" c3Store c3Record = .ok (sn2, a, st2) ∧
      sn2 = 1 ∧ obsVal st2 1 emailSendCol = obsVal c3Store 1 emailSendCol := by
  have hisok :
      (upsert_record "2026-01-05T00:00:00Z" c3Store c3Record).toOption.isSome =
        true := rfl
  cases hok : upsert_record "2026-01-05T00:00:00Z" c3Store c3Record with
  | error msg => rw [hok] at hisok; simp [Except.toOption] at hisok
  | ok p =>
    obtain ⟨sn2, a, st2⟩ := p
    exact ⟨sn2, a, st2, rfl,
      (upsert_record_protected_column "2026-01-05T00:00:00Z" c3Store c3Record
          "amy@z.io" (by decide) (by decide) (by decide) (by decide)
          (by decide)).2 1 c3Row (by decide) sn2 a st2 hok⟩

/-- C10: `upsert_record` never takes a row identifier from its input. On
insert, any incoming `S.N.` is removed before the write and the backend
assigns the next identifier; on update (or NO-OP) the returned identifier is
the existing row identifier and the identifiers of the stored rows are
untouched. -/
theorem upsert_record_identifier_not_from_input
    (now : String) (st : Store) (record : Rec) (e : String)
    (h1 : getKey record emailCol = some (.vstr e)) (h2 : e ≠ "") :
    (getExisting st e = none →
      (∀ p ∈ st.rows, p.1 ≠ st.nextSn) →
      ∀ sn a st2, upsert_record now st record = .ok (sn, a, st2) →
        sn = st.nextSn ∧ st2.nextSn = st.nextSn + 1 ∧
        ∃ r2, rowOf st2 st.nextSn = some r2 ∧ getKey r2 snCol = none) ∧
    (∀ sn stored, getExisting st e = some (sn, stored) →
      ∀ sn2 a st2, upsert_record now st record = .ok (sn2, a, st2) →
        sn2 = sn ∧ st2.rows.map Prod.fst = st.rows.map Prod.fst) := by
  constructor
  · -- INSERT path
    intro h3 hninv sn a st2 hok
    rw [upsert_record_new now st record e h1 h2 h3] at hok
    cases hins : insertRecord st (insertPayload now record) with
    | error msg =>
      rw [hins] at hok
      simp at hok
    | ok p =>
      rw [hins] at hok
      simp only [Except.ok.injEq, Prod.mk.injEq] at hok
      obtain ⟨hsn, _, hst⟩ := hok
      unfold insertRecord at hins
      dsimp only at hins
      split at hins
      · simp only [Except.ok.injEq] at hins
        subst hins
        refine ⟨hsn.symm, ?_, ?_⟩
        · rw [← hst]
          rfl
        · subst hst
          refine ⟨eraseKey (insertPayload now record) snCol, ?_, getKey_eraseKey_self _ snCol⟩
          unfold rowOf
          simp only [ensureApolloColumns_rows, ensureApolloColumns_nextSn]
          rw [find?_append_none st.rows _ _ (List.find?_eq_none.mpr (by
            intro p hp
            simp [hninv p hp]))]
          rw [List.find?_cons]
          simp
      · exact absurd hins (by simp)
  · -- merge path
    intro sn stored h3 sn2 a st2 hok
    rw [upsert_record_existing now st record e sn stored h1 h2 h3] at hok
    by_cases hm : (mergeFold (materialize st stored) record).2 = 0
    · rw [if_pos hm] at hok
      simp only [Except.ok.injEq, Prod.mk.injEq] at hok
      obtain ⟨hsn, _, hst⟩ := hok
      subst hst
      exact ⟨hsn.symm, rfl⟩
    · rw [if_neg hm] at hok
      cases hup : updateRecord st sn
          (setKey (mergeFold (materialize st stored) record).1 updCol (.vstr now)) with
      | error msg =>
        rw [hup] at hok
        simp at hok
      | ok stx =>
        rw [hup] at hok
        simp only [Except.ok.injEq, Prod.mk.injEq] at hok
        obtain ⟨hsn, _, hst⟩ := hok
        refine ⟨hsn.symm, ?_⟩
        subst hst
        unfold updateRecord at hup
        dsimp only at hup
        split at hup
        · simp only [Except.ok.injEq] at hup
          subst hup
          simp only [ensureApolloColumns_rows, List.map_map]
          simp [Function.comp]
          intro a b _
          by_cases h : a = sn <;> simp [h]
        · exact absurd hup (by simp)

/-- Witness for C10 on a fresh store: the identifier is backend-assigned and
the stored row carries no `S.N.` key of its own. -/
theorem upsert_record_identifier_not_from_input_witness :
    ∃ sn a st2,
      upsert_record "2026-03-01T00:00:00Z" initStore c10Record =
        .ok (sn, a, st2) ∧
      sn = initStore.nextSn ∧ st2.nextSn = initStore.nextSn + 1 ∧
      ∃ r2, rowOf st2 initStore.nextSn = some r2 ∧ getKey r2 snCol = none := by
  have hisok :
      (upsert_record "2026-03-01T00:00:00Z" initStore c10Record).toOption.isSome =
        true := rfl
  cases hok : upsert_record "2026-03-01T00:00:00Z" initStore c10Record with
  | error msg => rw [hok] at hisok; simp [Except.toOption] at hisok
  | ok p =>
    obtain ⟨sn, a, st2⟩ := p
    exact ⟨sn, a, st2, rfl,
      (upsert_record_identifier_not_from_input "2026-03-01T00:00:00Z" initStore
          c10Record "eve@q.com" (by decide) (by decide)).1 (by decide)
        (by decide) sn a st2 hok⟩

/-- Counterexample to C4 as stated: a record carrying the not-yet-known
column `"Custom Field"` is NOT persisted — the schema-evolution hook is only
ever asked to add Apollo-namespaced columns (so it is asked to add nothing
here) and the write fails. -/
theorem upsert_record_unknown_column_not_added :
    apolloColsOf (eraseKey (insertPayload "2026-01-01T00:00:00Z" c4BadRecord) snCol) = [] ∧
    upsert_record "2026-01-01T00:00:00Z" initStore c4BadRecord =
      .error "no such column" := by
  constructor
  · decide
  · rfl

/-- C4 amended: only the Apollo-namespaced columns of a record are added to
the schema and the cached column set before the write. A record whose
unknown columns are all Apollo-namespaced is persisted with those columns
stored (insert path), and on an update every Apollo-namespaced column of the
record is a schema column of the resulting store. -/
theorem upsert_record_schema_evolution_apollo
    (now : String) (st : Store) (record : Rec) (e : String)
    (h1 : getKey record emailCol = some (.vstr e)) (h2 : e ≠ "") :
    (getExisting st e = none →
      (∀ k ∈ keysOf record, k ∈ st.columns ∨ isApolloCol k = true) →
      updCol ∈ st.columns → emailSendCol ∈ st.columns →
      (∀ p ∈ st.rows, p.1 ≠ st.nextSn) →
      ∃ st2, upsert_record now st record = .ok (st.nextSn, .insert, st2) ∧
        (∀ k ∈ keysOf record, k ≠ snCol → k ∈ st2.columns) ∧
        ∃ r2, rowOf st2 st.nextSn = some r2 ∧
          ∀ k v, getKey record k = some v → k ≠ snCol → k ≠ updCol →
            getKey r2 k = some v) ∧
    (∀ sn stored, getExisting st e = some (sn, stored) →
      ∀ sn2 a st2, upsert_record now st record = .ok (sn2, a, st2) →
        a = .update →
        ∀ k ∈ keysOf record, isApolloCol k = true → k ∈ st2.columns) := by
  constructor
  · -- INSERT path
    intro h3 hcols hupdm hsendm hninv
    have hall2 : ∀ k ∈ keysOf (insertPayload now record), k ≠ snCol →
        k ∈ st.columns ∨ isApolloCol k = true := by
      intro k hk _
      rcases List.mem_append.mp (insertPayload_keys_sup now record hk) with hk1 | hk1
      · rcases List.mem_append.mp hk1 with hk2 | hk2
        · exact hcols k hk2
        · left
          rw [List.mem_singleton.mp hk2]
          exact hupdm
      · left
        rw [List.mem_singleton.mp hk1]
        exact hsendm
    have hins := upsert_record_new now st record e h1 h2 h3
    rw [insertRecord_ok st (insertPayload now record) hall2] at hins
    refine ⟨_, hins, ?_, ?_⟩
    · intro k hk hksn
      rcases hcols k hk with h | h
      · exact (ensureApolloColumns_mem st _ k).mpr (Or.inl h)
      · refine (ensureApolloColumns_mem st _ k).mpr (Or.inr ?_)
        unfold apolloColsOf
        refine List.mem_filter.mpr ⟨?_, by simpa using h⟩
        rw [keysOf_eraseKey]
        exact List.mem_filter.mpr
          ⟨insertPayload_keys_sub now record hk, by simpa using hksn⟩
    · refine ⟨eraseKey (insertPayload now record) snCol, ?_, ?_⟩
      · unfold rowOf
        simp only [ensureApolloColumns_rows, ensureApolloColumns_nextSn]
        rw [find?_append_none st.rows _ _ (List.find?_eq_none.mpr (by
          intro p hp
          simp [hninv p hp]))]
        rw [List.find?_cons]
        simp
      · intro k v hv hksn hku
        rw [getKey_eraseKey_ne _ snCol k hksn]
        by_cases hks : k = emailSendCol
        · subst hks
          rw [insertPayload_getKey_send now record, hv]
          rfl
        · rw [insertPayload_getKey_ne now record k hku hks, hv]
  · -- UPDATE path
    intro sn stored h3 sn2 a st2 hok ha k hk hap
    have hksn : k ≠ snCol := by
      intro he
      rw [he] at hap
      exact absurd hap (by decide)
    have hksend : k ≠ emailSendCol := by
      intro he
      rw [he] at hap
      exact absurd hap (by decide)
    rw [upsert_record_existing now st record e sn stored h1 h2 h3] at hok
    by_cases hm : (mergeFold (materialize st stored) record).2 = 0
    · rw [if_pos hm] at hok
      simp only [Except.ok.injEq, Prod.mk.injEq] at hok
      obtain ⟨_, hbad, _⟩ := hok
      rw [← hbad] at ha
      exact absurd ha (by simp)
    · rw [if_neg hm] at hok
      cases hup : updateRecord st sn
          (setKey (mergeFold (materialize st stored) record).1 updCol (.vstr now)) with
      | error msg =>
        rw [hup] at hok
        simp at hok
      | ok stx =>
        rw [hup] at hok
        simp only [Except.ok.injEq, Prod.mk.injEq] at hok
        obtain ⟨_, _, hst⟩ := hok
        subst hst
        unfold updateRecord at hup
        dsimp only at hup
        split at hup
        · simp only [Except.ok.injEq] at hup
          subst hup
          obtain ⟨v, hv⟩ := getKey_isSome_of_mem record k hk
          have hmemr : (k, v) ∈ record := mem_of_getKey record k v hv
          have hkm : k ∈ keysOf (mergeFold (materialize st stored) record).1 := by
            unfold mergeFold
            exact foldl_mergeStep_keys_of_mem record (materialize st stored) 0 k v hmemr
              (by
                rintro (he | he)
                · exact hksn he
                · exact hksend he)
          refine (ensureApolloColumns_mem st _ k).mpr (Or.inr ?_)
          unfold apolloColsOf
          exact List.mem_filter.mpr
            ⟨setKey_keys_sub _ updCol (.vstr now) hkm, by simpa using hap⟩
        · exact absurd hup (by simp)

/-- Witness for amended C4 on a fresh store: the Apollo-namespaced column is
added and the record persisted with it stored. -/
theorem upsert_record_schema_evolution_apollo_witness :
    ∃ st2, upsert_record "2026-01-06T00:00:00Z" initStore c4GoodRecord =
        .ok (initStore.nextSn, .insert, st2) ∧
      (∀ k ∈ keysOf c4GoodRecord, k ≠ snCol → k ∈ st2.columns) ∧
      ∃ r2, rowOf st2 initStore.nextSn = some r2 ∧
        ∀ k v, getKey c4GoodRecord k = some v → k ≠ snCol → k ≠ updCol →
          getKey r2 k = some v :=
  (upsert_record_schema_evolution_apollo "2026-01-06T00:00:00Z" initStore
      c4GoodRecord "ann@h.co" (by decide) (by decide)).1 (by decide) (by decide)
    (by decide) (by decide) (by decide)

theorem batchStep_shift (now : String) (a : BatchAcc) (r : Rec) :
    batchStep now a r = combineAcc a (batchStep now (emptyAcc a.store) r) := by
  unfold batchStep emptyAcc combineAcc
  cases hu : upsert_record now a.store r with
  | ok p =>
    obtain ⟨sn, act, st2⟩ := p
    cases act <;> simp
  | error msg => simp

theorem combineAcc_assoc (a b c : BatchAcc) :
    combineAcc a (combineAcc b c) = combineAcc (combineAcc a b) c := by
  simp [combineAcc, List.append_assoc, Nat.add_assoc]

theorem combineAcc_empty (a : BatchAcc) : combineAcc a (emptyAcc a.store) = a := by
  cases a
  simp [combineAcc, emptyAcc]

theorem foldl_batchStep_shift (now : String) (records : List Rec) :
    ∀ a : BatchAcc,
    records.foldl (batchStep now) a =
      combineAcc a (records.foldl (batchStep now) (emptyAcc a.store)) := by
  induction records with
  | nil => intro a; exact (combineAcc_empty a).symm
  | cons r rs ih =>
    intro a
    simp only [List.foldl_cons]
    rw [ih (batchStep now a r), batchStep_shift now a r, ih (batchStep now (emptyAcc a.store) r)]
    rw [combineAcc_assoc]
    have hst : (combineAcc a (batchStep now (emptyAcc a.store) r)).store =
        (batchStep now (emptyAcc a.store) r).store := rfl
    rw [hst]

theorem foldl_batchStep_sns_len (now : String) (records : List Rec) :
    ∀ a : BatchAcc,
    (records.foldl (batchStep now) a).sns.length = a.sns.length + records.length := by
  induction records with
  | nil => intro a; simp
  | cons r rs ih =>
    intro a
    simp only [List.foldl_cons, List.length_cons]
    rw [ih (batchStep now a r)]
    have hstep : (batchStep now a r).sns.length = a.sns.length + 1 := by
      unfold batchStep
      cases hu : upsert_record now a.store r with
      | ok p =>
        obtain ⟨sn, act, st2⟩ := p
        simp
      | error msg => simp
    rw [hstep]
    omega

theorem foldl_batchStep_counts (now : String) (records : List Rec) :
    ∀ a : BatchAcc,
    (a.insertedEmails.length = a.inserted ∧ a.updatedEmails.length = a.updated ∧
      a.failedRecords.length = a.failed ∧
      a.inserted + a.updated + a.failed ≤ a.sns.length) →
    ((records.foldl (batchStep now) a).insertedEmails.length =
        (records.foldl (batchStep now) a).inserted ∧
      (records.foldl (batchStep now) a).updatedEmails.length =
        (records.foldl (batchStep now) a).updated ∧
      (records.foldl (batchStep now) a).failedRecords.length =
        (records.foldl (batchStep now) a).failed ∧
      (records.foldl (batchStep now) a).inserted + (records.foldl (batchStep now) a).updated +
          (records.foldl (batchStep now) a).failed ≤
        (records.foldl (batchStep now) a).sns.length) := by
  induction records with
  | nil => intro a h; exact h
  | cons r rs ih =>
    intro a h
    simp only [List.foldl_cons]
    refine ih (batchStep now a r) ?_
    unfold batchStep
    cases hu : upsert_record now a.store r with
    | ok p =>
      obtain ⟨sn, act, st2⟩ := p
      cases act <;> simp <;> omega
    | error msg =>
      simp
      omega

/-- Counterexample to C8 as stated: a batch whose single record is a NO-OP
returns statistics whose keys are exactly inserted / updated / failed (plus
the three lists) — there is no no-op count anywhere in the returned
statistics even though one record was a NO-OP. -/
theorem upsert_batch_statistics_lack_noop_count :
    upsert_record "2026-01-07T00:00:00Z" c8Store c8Row = .ok (1, .skip, c8Store) ∧
    upsert_batch "2026-01-07T00:00:00Z" c8Store [c8Row] =
      ([(1 : Int)],
       [("inserted", .num 0), ("updated", .num 0), ("failed", .num 0),
        ("inserted_emails", .emails []), ("updated_emails", .emails []),
        ("failed_records", .failures [])],
       c8Store) :=
  ⟨rfl, rfl⟩

/-- C8 amended: `upsert_batch` processes the records in order; a record
whose upsert raises is counted as failed, recorded with its natural key and
the error message, and does not stop processing of the remaining records
(which continue against the unchanged store); the returned statistics carry
counts of inserted, updated and failed records and the matching key lists —
no-op records are not separately counted (they are the records beyond
inserted + updated + failed). -/
theorem upsert_batch_spec (now : String) (st : Store) (records : List Rec) :
    (upsert_batch now st records).1.length = records.length ∧
    (∃ acc : BatchAcc, (upsert_batch now st records).2.1 = statsListOf acc ∧
      acc.insertedEmails.length = acc.inserted ∧
      acc.updatedEmails.length = acc.updated ∧
      acc.failedRecords.length = acc.failed ∧
      acc.inserted + acc.updated + acc.failed ≤ records.length) ∧
    (∀ r rs sn a st2, records = r :: rs → upsert_record now st r = .ok (sn, a, st2) →
      (upsert_batch now st records).1 = Int.ofNat sn :: (upsert_batch now st2 rs).1 ∧
      (upsert_batch now st records).2.2 = (upsert_batch now st2 rs).2.2) ∧
    (∀ r rs msg, records = r :: rs → upsert_record now st r = .error msg →
      (upsert_batch now st records).1 = (-1 : Int) :: (upsert_batch now st rs).1 ∧
      (upsert_batch now st records).2.2 = (upsert_batch now st rs).2.2 ∧
      ∃ acc : BatchAcc, (upsert_batch now st rs).2.1 = statsListOf acc ∧
        (upsert_batch now st records).2.1 =
          [("inserted", .num acc.inserted), ("updated", .num acc.updated),
           ("failed", .num (1 + acc.failed)),
           ("inserted_emails", .emails acc.insertedEmails),
           ("updated_emails", .emails acc.updatedEmails),
           ("failed_records", .failures ((emailStrOf r, msg) :: acc.failedRecords))]) := by
  refine ⟨?_, ?_, ?_, ?_⟩
  · -- same length
    unfold upsert_batch
    rw [foldl_batchStep_sns_len now records ⟨[], 0, 0, 0, [], [], [], st⟩]
    simp
  · -- statistics shape and count consistency
    refine ⟨records.foldl (batchStep now) ⟨[], 0, 0, 0, [], [], [], st⟩, rfl, ?_⟩
    have h1 := foldl_batchStep_counts now records ⟨[], 0, 0, 0, [], [], [], st⟩
      (by simp)
    have h2 := foldl_batchStep_sns_len now records ⟨[], 0, 0, 0, [], [], [], st⟩
    simp only [List.length_nil, Nat.zero_add] at h2
    exact ⟨h1.1, h1.2.1, h1.2.2.1, h2 ▸ h1.2.2.2⟩
  · -- successful head record
    intro r rs sn a st2 hrec hu
    subst hrec
    unfold upsert_batch
    simp only [List.foldl_cons]
    have hstep : batchStep now ⟨[], 0, 0, 0, [], [], [], st⟩ r =
        ⟨[Int.ofNat sn],
         if a = .insert then 1 else 0,
         if a = .update then 1 else 0, 0,
         if a = .insert then [emailStrOf r] else [],
         if a = .update then [emailStrOf r] else [], [], st2⟩ := by
      unfold batchStep
      rw [hu]
      cases a <;> simp
    rw [hstep, foldl_batchStep_shift now rs _]
    constructor
    · simp [combineAcc, emptyAcc]
    · simp [combineAcc, emptyAcc]
  · -- failing head record
    intro r rs msg hrec hu
    subst hrec
    unfold upsert_batch
    simp only [List.foldl_cons]
    have hstep : batchStep now ⟨[], 0, 0, 0, [], [], [], st⟩ r =
        ⟨[(-1 : Int)], 0, 0, 1, [], [], [(emailStrOf r, msg)], st⟩ := by
      unfold batchStep
      rw [hu]
      rfl
    rw [hstep, foldl_batchStep_shift now rs _]
    refine ⟨by simp [combineAcc, emptyAcc], by simp [combineAcc, emptyAcc], ?_⟩
    refine ⟨rs.foldl (batchStep now) ⟨[], 0, 0, 0, [], [], [], st⟩, rfl, ?_⟩
    simp [combineAcc, statsListOf, emptyAcc]

/-- Witness for amended C8: a batch of one bad record (no natural key) and
one good record — the bad one is recorded as failed with its error message
and the good one is still processed. -/
theorem upsert_batch_spec_witness :
    (upsert_batch "2026-01-08T00:00:00Z" initStore
        [[("First Name", Val.vstr "Sam")], c2Record]).1 =
      (-1 : Int) :: (upsert_batch "2026-01-08T00:00:00Z" initStore [c2Record]).1 ∧
    (upsert_batch "2026-01-08T00:00:00Z" initStore
        [[("First Name", Val.vstr "Sam")], c2Record]).2.2 =
      (upsert_batch "2026-01-08T00:00:00Z" initStore [c2Record]).2.2 ∧
    ∃ acc : BatchAcc,
      (upsert_batch "2026-01-08T00:00:00Z" initStore [c2Record]).2.1 = statsListOf acc ∧
      (upsert_batch "2026-01-08T00:00:00Z" initStore
          [[("First Name", Val.vstr "Sam")], c2Record]).2.1 =
        [("inserted", .num acc.inserted), ("updated", .num acc.updated),
         ("failed", .num (1 + acc.failed)),
         ("inserted_emails", .emails acc.insertedEmails),
         ("updated_emails", .emails acc.updatedEmails),
         ("failed_records", .failures
           ((emailStrOf [("First Name", Val.vstr "Sam")],
             "Email ID (unique) is required for upsert") :: acc.failedRecords))] :=
  (upsert_batch_spec "2026-01-08T00:00:00Z" initStore
      [[("First Name", Val.vstr "Sam")], c2Record]).2.2.2
    [("First Name", Val.vstr "Sam")] [c2Record]
    "Email ID (unique) is required for upsert" rfl rfl

end Db

theorem chunkGo_fuel {α : Type} (n : Nat) (hn : n ≠ 0) :
    ∀ (fuel fuel' : Nat) (l : List α), l.length ≤ fuel → l.length ≤ fuel' →
    chunkGo fuel l n = chunkGo fuel' l n := by
  intro fuel
  induction fuel with
  | zero =>
    intro fuel' l hl _
    have : l = [] := List.length_eq_zero.mp (Nat.le_zero.mp hl)
    subst this
    cases fuel' <;> rfl
  | succ f ih =>
    intro fuel' l hl hl'
    cases l with
    | nil => cases fuel' <;> rfl
    | cons a as =>
      cases fuel' with
      | zero => simp at hl'
      | succ f' =>
        simp only [chunkGo]
        have hn1 : 1 ≤ n := Nat.one_le_iff_ne_zero.mpr hn
        have hdrop : ((a :: as).drop n).length ≤ f := by
          simp only [List.length_drop, List.length_cons]
          simp only [List.length_cons] at hl
          omega
        have hdrop' : ((a :: as).drop n).length ≤ f' := by
          simp only [List.length_drop, List.length_cons]
          simp only [List.length_cons] at hl'
          omega
        rw [ih f' ((a :: as).drop n) hdrop hdrop']

theorem chunk_list_nil {α : Type} (n : Nat) : chunk_list ([] : List α) n = [] := by
  unfold chunk_list
  by_cases h : n = 0
  · simp [h]
  · simp [h, chunkGo]

theorem chunk_list_cons {α : Type} (items : List α) (n : Nat)
    (hn : n ≠ 0) (hi : items ≠ []) :
    chunk_list items n = items.take n :: chunk_list (items.drop n) n := by
  obtain ⟨a, as, rfl⟩ := List.exists_cons_of_ne_nil hi
  unfold chunk_list
  simp only [hn, if_false, List.length_cons]
  rw [show chunkGo (as.length + 1) (a :: as) n =
      (a :: as).take n :: chunkGo as.length ((a :: as).drop n) n from rfl]
  congr 1
  apply chunkGo_fuel n hn
  · simp only [List.length_drop, List.length_cons]
    omega
  · exact Nat.le_refl _

theorem chunk_list_join {α : Type} (n : Nat) (hn : n ≠ 0) :
    ∀ (items : List α), (chunk_list items n).flatten = items := by
  suffices h : ∀ (len : Nat) (items : List α), items.length = len →
      (chunk_list items n).flatten = items by
    intro items
    exact h items.length items rfl
  intro len
  induction len using Nat.strong_induction_on with
  | _ len ih =>
    intro items hl
    cases items with
    | nil => simp [chunk_list_nil]
    | cons a as =>
      rw [chunk_list_cons (a :: as) n hn (by simp), List.flatten_cons]
      have hlt : ((a :: as).drop n).length < len := by
        rw [← hl]
        simp only [List.length_drop, List.length_cons]
        omega
      rw [ih ((a :: as).drop n).length hlt ((a :: as).drop n) rfl]
      exact List.take_append_drop n (a :: as)

theorem chunk_list_length_le {α : Type} (n : Nat) (hn : n ≠ 0) :
    ∀ (items : List α) (b : List α), b ∈ chunk_list items n → b.length ≤ n := by
  suffices h : ∀ (len : Nat) (items : List α), items.length = len →
      ∀ b : List α, b ∈ chunk_list items n → b.length ≤ n by
    intro items
    exact h items.length items rfl
  intro len
  induction len using Nat.strong_induction_on with
  | _ len ih =>
    intro items hl b hb
    cases items with
    | nil => rw [chunk_list_nil] at hb; simp at hb
    | cons a as =>
      rw [chunk_list_cons (a :: as) n hn (by simp)] at hb
      rcases List.mem_cons.mp hb with hb | hb
      · subst hb
        simp [List.length_take]
      · have hlt : ((a :: as).drop n).length < len := by
          rw [← hl]
          simp only [List.length_drop, List.length_cons]
          omega
        exact ih ((a :: as).drop n).length hlt ((a :: as).drop n) rfl b hb

namespace Ap

/-- Counterexample to C5 as stated: with input `[c5r1, c5r2]` (no-info
record first) the output is `[c5r2, c5r1]` — the record at output position 0
is not the record at input position 0, because within a batch the
domain-bearing records are emitted first. -/
theorem enrich_organizations_bulk_not_order_preserving :
    enrich_organizations_bulk (O := Unit) (fun _ => .ok []) (fun _ => [])
        25 none [c5r1, c5r2] = [c5r2, c5r1] ∧
      c5r1 ≠ c5r2 :=
  ⟨rfl, by decide⟩

theorem filter_split_length {α : Type} (l : List α) (p : α → Bool) :
    (l.filter p).length + (l.filter (fun a => !p a)).length = l.length := by
  induction l with
  | nil => rfl
  | cons a t ih =>
    cases hp : p a <;> simp [List.filter_cons, hp] <;> omega

theorem orgOnlyCompany_eq_filter (batch : List Rec) :
    orgOnlyCompany batch = (orgWithInfo batch).filter (fun r => !domainPred r) := by
  unfold orgOnlyCompany
  apply List.filter_congr
  intro r hr
  cases hd : domainPred r
  · have hm : r ∉ orgWithDomain batch := by
      intro hm
      have := (List.mem_filter.mp hm).2
      rw [hd] at this
      exact Bool.noConfusion this
    simp [hm]
  · have hm : r ∈ orgWithDomain batch := List.mem_filter.mpr ⟨hr, hd⟩
    simp [hm]

theorem processOrgBatch_length {O : Type}
    (api : List String → Except String (List (Option O)))
    (mapCompany : O → Rec) (batch : List Rec) :
    (processOrgBatch api mapCompany batch).length = batch.length := by
  unfold processOrgBatch
  by_cases hd : orgDomains batch = []
  · rw [if_pos hd]
    rw [List.length_append]
    exact filter_split_length batch hasOrgInfo
  · rw [if_neg hd]
    cases api (orgDomains batch) with
    | error e => simp
    | ok ms =>
      simp only [List.length_append]
      have h1 : (parseOrgResponse mapCompany ms (orgWithDomain batch)).length =
          (orgWithDomain batch).length := by
        unfold parseOrgResponse
        rw [List.length_map, List.enum_length]
      rw [h1, orgOnlyCompany_eq_filter]
      have h2 : (orgWithDomain batch).length +
          ((orgWithInfo batch).filter (fun r => !domainPred r)).length =
          (orgWithInfo batch).length := by
        unfold orgWithDomain
        exact filter_split_length (orgWithInfo batch) domainPred
      have h3 : (orgWithInfo batch).length + (orgWithoutInfo batch).length =
          batch.length := filter_split_length batch hasOrgInfo
      omega

theorem flatten_map_length {α : Type} (f : List α → List α)
    (hf : ∀ b, (f b).length = b.length) :
    ∀ chunks : List (List α), ((chunks.map f).flatten).length = chunks.flatten.length := by
  intro chunks
  induction chunks with
  | nil => rfl
  | cons b bs ih =>
    simp only [List.map_cons, List.flatten_cons, List.length_append, ih, hf b]

/-- C5 amended: `enrich_organizations_bulk` returns a list of the same
length as its input, but not in input order: within each capped-size group
the output lists the domain-bearing records (enriched) first, then the
company-name-only records, then the records without org info, the latter two
passed through unmodified; when the provider call for a group raises, every
record of that group is output with an `_enrichment_error` marker instead. -/
theorem enrich_organizations_bulk_spec :
    (∀ (O : Type) (api : List String → Except String (List (Option O)))
        (mapCompany : O → Rec) (cfg : Nat) (req : Option Nat) (records : List Rec),
      effBatch req cfg ≠ 0 →
      (enrich_organizations_bulk api mapCompany cfg req records).length =
        records.length) ∧
    (∀ (O : Type) (api : List String → Except String (List (Option O)))
        (mapCompany : O → Rec) (batch : List Rec) (e : String),
      orgDomains batch ≠ [] → api (orgDomains batch) = .error e →
      processOrgBatch api mapCompany batch =
        batch.map (fun r => setKey r errKey (.vstr e))) ∧
    (∀ (O : Type) (api : List String → Except String (List (Option O)))
        (mapCompany : O → Rec) (batch : List Rec) (ms : List (Option O)),
      orgDomains batch ≠ [] → api (orgDomains batch) = .ok ms →
      processOrgBatch api mapCompany batch =
        parseOrgResponse mapCompany ms (orgWithDomain batch) ++
          (orgWithInfo batch).filter (fun r => !domainPred r) ++
          batch.filter (fun r => !hasOrgInfo r)) ∧
    (∀ (O : Type) (api : List String → Except String (List (Option O)))
        (mapCompany : O → Rec) (batch : List Rec),
      orgDomains batch = [] →
      processOrgBatch api mapCompany batch =
        batch.filter hasOrgInfo ++ batch.filter (fun r => !hasOrgInfo r)) ∧
    (∀ (O : Type) (api : List String → Except String (List (Option O)))
        (mapCompany : O → Rec) (batch : List Rec) (r : Rec),
      r ∈ batch → hasOrgInfo r = false →
      (orgDomains batch = [] ∨ ∃ ms, api (orgDomains batch) = .ok ms) →
      r ∈ processOrgBatch api mapCompany batch) := by
  refine ⟨?_, ?_, ?_, ?_, ?_⟩
  · intro O api mapCompany cfg req records hn
    unfold enrich_organizations_bulk
    rw [flatten_map_length (processOrgBatch api mapCompany)
      (processOrgBatch_length api mapCompany) (chunk_list records (effBatch req cfg))]
    rw [chunk_list_join (effBatch req cfg) hn records]
  · intro O api mapCompany batch e hd hapi
    unfold processOrgBatch
    rw [if_neg hd, hapi]
  · intro O api mapCompany batch ms hd hapi
    unfold processOrgBatch
    rw [if_neg hd, hapi, orgOnlyCompany_eq_filter]
    rfl
  · intro O api mapCompany batch hd
    unfold processOrgBatch
    rw [if_pos hd]
    rfl
  · intro O api mapCompany batch r hr hno hcase
    have hwo : r ∈ orgWithoutInfo batch :=
      List.mem_filter.mpr ⟨hr, by simp [hno]⟩
    unfold processOrgBatch
    rcases hcase with hd | ⟨ms, hapi⟩
    · rw [if_pos hd]
      exact List.mem_append.mpr (Or.inr hwo)
    · by_cases hd : orgDomains batch = []
      · rw [if_pos hd]
        exact List.mem_append.mpr (Or.inr hwo)
      · rw [if_neg hd, hapi]
        exact List.mem_append.mpr (Or.inr hwo)

/-- Witness for amended C5: length preservation and failure marking on
concrete inputs. -/
theorem enrich_organizations_bulk_spec_witness :
    (enrich_organizations_bulk (O := Unit) (fun _ => .ok []) (fun _ => [])
        25 none [c5r1, c5r2]).length = 2 ∧
    processOrgBatch (O := Unit) (fun _ => .error "boom") (fun _ => [])
        [c5r1, c5r2] =
      [c5r1, c5r2].map (fun r => setKey r errKey (.vstr "boom")) :=
  ⟨(enrich_organizations_bulk_spec.1 Unit (fun _ => .ok []) (fun _ => [])
      25 none [c5r1, c5r2] (by decide)).trans rfl,
   enrich_organizations_bulk_spec.2.1 Unit (fun _ => .error "boom")
     (fun _ => []) [c5r1, c5r2] "boom" (by decide) rfl⟩

/-- C6: the effective batch size of the people bulk-match is the minimum of
the requested (or configured) batch size and the provider cap of 10;
enriching 11 records with a requested size above the cap makes exactly 2
provider calls, and the first call's `details` payload has exactly 10
entries. -/
theorem enrich_people_bulk_batching_cap (cfg b : Nat) (records : List Rec)
    (hb : 10 < b) (hlen : records.length = 11) :
    effBatch (some b) cfg = 10 ∧
    (∀ b2 cfg2 : Nat, b2 ≠ 0 → effBatch (some b2) cfg2 = min b2 10) ∧
    (∀ cfg2 : Nat, effBatch none cfg2 = min cfg2 10) ∧
    (peopleCallPayloads cfg (some b) records).length = 2 ∧
    ((peopleCallPayloads cfg (some b) records).head?.map
        (fun p => p.details.length)) = some 10 := by
  have hb0 : b ≠ 0 := by omega
  have heff : effBatch (some b) cfg = 10 := by
    show min (if b = 0 then cfg else b) 10 = 10
    rw [if_neg hb0]
    omega
  have hrecne : records ≠ [] := by
    intro h
    rw [h] at hlen
    simp at hlen
  have hchunks : chunk_list records (effBatch (some b) cfg) =
      [records.take 10, (records.drop 10).take 10] := by
    rw [heff, chunk_list_cons records 10 (by decide) hrecne]
    congr 1
    have hd1 : (records.drop 10).length = 1 := by
      rw [List.length_drop, hlen]
    have hdne : records.drop 10 ≠ [] := by
      intro h
      rw [h] at hd1
      simp at hd1
    rw [chunk_list_cons (records.drop 10) 10 (by decide) hdne]
    congr 1
    have hnil : (records.drop 10).drop 10 = [] := by
      apply List.eq_nil_of_length_eq_zero
      rw [List.length_drop, hd1]
    rw [hnil, chunk_list_nil]
  refine ⟨heff, ?_, ?_, ?_, ?_⟩
  · intro b2 cfg2 hb2
    show min (if b2 = 0 then cfg2 else b2) 10 = min b2 10
    rw [if_neg hb2]
  · intro cfg2
    rfl
  · unfold peopleCallPayloads
    rw [hchunks]
    rfl
  · unfold peopleCallPayloads
    rw [hchunks]
    show some ((prepare_people_payload (records.take 10)).details.length) = some 10
    unfold prepare_people_payload
    simp only [List.length_map, List.length_take, hlen]
    rfl

/-- Witness for C6 at 11 concrete records and a requested batch size of 25. -/
theorem enrich_people_bulk_batching_cap_witness :
    effBatch (some 25) 25 = 10 ∧
    (∀ b2 cfg2 : Nat, b2 ≠ 0 → effBatch (some b2) cfg2 = min b2 10) ∧
    (∀ cfg2 : Nat, effBatch none cfg2 = min cfg2 10) ∧
    (peopleCallPayloads 25 (some 25) c6Records).length = 2 ∧
    ((peopleCallPayloads 25 (some 25) c6Records).head?.map
        (fun p => p.details.length)) = some 10 :=
  enrich_people_bulk_batching_cap 25 25 c6Records (by decide) (by decide)

/-- Running the retry loop through `k` consecutive 429/5xx responses: each
one appends one backoff sleep (at the current attempt index) and one use of
the unchanged timeout, and advances the attempt counter by one. -/
theorem mkreqGo_resp_run {β : Type} (cfg : ApolloCfg)
    (out : Nat → Nat → HttpOutcome β) (tmo : Nat) :
    ∀ (k fuel a : Nat) (sleeps : List ℚ) (touts : List Nat),
      k ≤ fuel → (∀ i, i < k → retryableResp (out (a + i) tmo) = true) →
      mkreqGo cfg out fuel a tmo sleeps touts =
        mkreqGo cfg out (fuel - k) (a + k) tmo
          (sleeps ++ (List.range' a k).map (calculate_backoff cfg))
          (touts ++ List.replicate k tmo) := by
  intro k
  induction k with
  | zero =>
    intro fuel a sleeps touts _ _
    simp [List.range']
  | succ k ih =>
    intro fuel a sleeps touts hle hret
    cases fuel with
    | zero => omega
    | succ f =>
      have h0 := hret 0 (Nat.succ_pos k)
      rw [Nat.add_zero] at h0
      cases hout : out a tmo with
      | resp code text body =>
        rw [hout] at h0
        simp only [retryableResp, Bool.or_eq_true, beq_iff_eq, decide_eq_true_eq] at h0
        have hne : ¬ code = 200 := by rcases h0 with h | ⟨h1, h2⟩ <;> omega
        have hstep : mkreqGo cfg out (f + 1) a tmo sleeps touts =
            mkreqGo cfg out f (a + 1) tmo
              (sleeps ++ [calculate_backoff cfg a]) (touts ++ [tmo]) := by
          simp only [mkreqGo, hout]
          rw [if_neg hne, if_pos h0]
        rw [hstep]
        rw [ih f (a + 1) _ _ (by omega)
          (fun i hi => by
            have h := hret (i + 1) (by omega)
            rwa [show a + (i + 1) = a + 1 + i by omega] at h)]
        have hs : (sleeps ++ [calculate_backoff cfg a]) ++
            (List.range' (a + 1) k).map (calculate_backoff cfg) =
            sleeps ++ (List.range' a (k + 1)).map (calculate_backoff cfg) := by
          rw [List.range'_succ]
          simp
        have ht : (touts ++ [tmo]) ++ List.replicate k tmo =
            touts ++ List.replicate (k + 1) tmo := by
          simp [List.replicate_succ]
        rw [hs, ht, show f - k = f + 1 - (k + 1) by omega,
          show a + 1 + k = a + (k + 1) by omega]
      | timeoutExn =>
        rw [hout] at h0
        simp [retryableResp] at h0
      | reqExn msg =>
        rw [hout] at h0
        simp [retryableResp] at h0

/-- Running the retry loop through `k` consecutive timeouts: each one appends
one backoff sleep and one use of the current timeout, advances the attempt
counter, and increases the timeout by half for the next POST. -/
theorem mkreqGo_timeout_run {β : Type} (cfg : ApolloCfg)
    (out : Nat → Nat → HttpOutcome β) :
    ∀ (k fuel a tmo : Nat) (sleeps : List ℚ) (touts : List Nat),
      k ≤ fuel → (∀ i t, i < k → out (a + i) t = .timeoutExn) →
      mkreqGo cfg out fuel a tmo sleeps touts =
        mkreqGo cfg out (fuel - k) (a + k) (iterTimeout tmo k)
          (sleeps ++ (List.range' a k).map (calculate_backoff cfg))
          (touts ++ tmoTrace tmo k) := by
  intro k
  induction k with
  | zero =>
    intro fuel a tmo sleeps touts _ _
    simp [List.range', iterTimeout, tmoTrace]
  | succ k ih =>
    intro fuel a tmo sleeps touts hle hto
    cases fuel with
    | zero => omega
    | succ f =>
      have h0 := hto 0 tmo (Nat.succ_pos k)
      rw [Nat.add_zero] at h0
      have hstep : mkreqGo cfg out (f + 1) a tmo sleeps touts =
          mkreqGo cfg out f (a + 1) (timeoutStep tmo)
            (sleeps ++ [calculate_backoff cfg a]) (touts ++ [tmo]) := by
        simp only [mkreqGo, h0]
      rw [hstep]
      rw [ih f (a + 1) (timeoutStep tmo) _ _ (by omega)
        (fun i t hi => by
          have h := hto (i + 1) t (by omega)
          rwa [show a + (i + 1) = a + 1 + i by omega] at h)]
      have hs : (sleeps ++ [calculate_backoff cfg a]) ++
          (List.range' (a + 1) k).map (calculate_backoff cfg) =
          sleeps ++ (List.range' a (k + 1)).map (calculate_backoff cfg) := by
        rw [List.range'_succ]
        simp
      have ht : (touts ++ [tmo]) ++ tmoTrace (timeoutStep tmo) k =
          touts ++ tmoTrace tmo (k + 1) := by
        simp [tmoTrace]
      have hit : iterTimeout (timeoutStep tmo) k = iterTimeout tmo (k + 1) := rfl
      rw [hs, ht, hit, show f - k = f + 1 - (k + 1) by omega,
        show a + 1 + k = a + (k + 1) by omega]

/-- C7: `_make_request` retries on HTTP 429, HTTP 5xx, and request timeouts,
sleeping `min(APOLLO_INITIAL_BACKOFF * 2 ^ attempt, APOLLO_MAX_BACKOFF)` with
the attempt counter incremented on every such retry (so the delays for
attempts 0, 1, 2 are initial, 2 x initial, 4 x initial, each capped at
`max_backoff`), and the timeout is increased by 50 percent after each
timeout-triggered retry; any other HTTP status and any non-timeout request
exception fail immediately with a typed error and no retry; exhausting
`APOLLO_MAX_RETRIES` attempts yields the typed exhausted-retries error. -/
theorem make_request_retry_policy {β : Type} (cfg : ApolloCfg)
    (out : Nat → Nat → HttpOutcome β) (tmo k code : Nat)
    (text msg : String) (body : β) :
    (∀ a, calculate_backoff cfg a =
      min (cfg.initialBackoff * 2 ^ a) cfg.maxBackoff)
    ∧ calculate_backoff cfg 0 = min cfg.initialBackoff cfg.maxBackoff
    ∧ calculate_backoff cfg 1 = min (cfg.initialBackoff * 2) cfg.maxBackoff
    ∧ calculate_backoff cfg 2 = min (cfg.initialBackoff * 4) cfg.maxBackoff
    ∧ (∀ t, timeoutStep t = 3 * t / 2)
    ∧ (k < cfg.maxRetries →
        (∀ i, i < k → retryableResp (out i tmo) = true) →
        out k tmo = .resp 200 text body →
        make_request cfg out tmo =
          ⟨.ok body, (List.range k).map (calculate_backoff cfg),
            List.replicate (k + 1) tmo⟩)
    ∧ (k < cfg.maxRetries →
        (∀ i t, i < k → out i t = .timeoutExn) →
        (∀ t, out k t = .resp 200 text body) →
        make_request cfg out tmo =
          ⟨.ok body, (List.range k).map (calculate_backoff cfg),
            tmoTrace tmo k ++ [iterTimeout tmo k]⟩)
    ∧ (0 < cfg.maxRetries → out 0 tmo = .resp code text body →
        ¬ code = 200 → ¬ (code = 429 ∨ (500 ≤ code ∧ code < 600)) →
        make_request cfg out tmo = ⟨.error (.apiError code text), [], [tmo]⟩)
    ∧ (0 < cfg.maxRetries → out 0 tmo = .reqExn msg →
        make_request cfg out tmo = ⟨.error (.requestFailed msg), [], [tmo]⟩)
    ∧ ((∀ i, i < cfg.maxRetries → retryableResp (out i tmo) = true) →
        make_request cfg out tmo =
          ⟨.error (.exhausted cfg.maxRetries),
            (List.range cfg.maxRetries).map (calculate_backoff cfg),
            List.replicate cfg.maxRetries tmo⟩) := by
  refine ⟨fun a => rfl, ?_, ?_, ?_, fun t => rfl, ?_, ?_, ?_, ?_, ?_⟩
  · simp [calculate_backoff]
  · rw [calculate_backoff]; norm_num
  · rw [calculate_backoff]; norm_num
  · intro hk hret hsucc
    unfold make_request
    rw [mkreqGo_resp_run cfg out tmo k cfg.maxRetries 0 [] [] (le_of_lt hk)
      (fun i hi => by simpa using hret i hi)]
    obtain ⟨m, hm⟩ : ∃ m, cfg.maxRetries - k = m + 1 :=
      ⟨cfg.maxRetries - k - 1, by omega⟩
    rw [hm]
    simp only [List.nil_append, Nat.zero_add]
    simp only [mkreqGo, hsucc, if_true]
    rw [← List.range_eq_range', ← List.replicate_succ']
  · intro hk hto hsucc
    unfold make_request
    rw [mkreqGo_timeout_run cfg out k cfg.maxRetries 0 tmo [] [] (le_of_lt hk)
      (fun i t hi => by simpa using hto i t hi)]
    obtain ⟨m, hm⟩ : ∃ m, cfg.maxRetries - k = m + 1 :=
      ⟨cfg.maxRetries - k - 1, by omega⟩
    rw [hm]
    simp only [List.nil_append, Nat.zero_add]
    simp only [mkreqGo, hsucc, if_true]
    rw [← List.range_eq_range']
  · intro hpos h0 hne hnr
    obtain ⟨m, hm⟩ : ∃ m, cfg.maxRetries = m + 1 := ⟨cfg.maxRetries - 1, by omega⟩
    unfold make_request
    rw [hm]
    simp only [mkreqGo, h0]
    rw [if_neg hne, if_neg hnr]
    simp
  · intro hpos h0
    obtain ⟨m, hm⟩ : ∃ m, cfg.maxRetries = m + 1 := ⟨cfg.maxRetries - 1, by omega⟩
    unfold make_request
    rw [hm]
    simp only [mkreqGo, h0]
    simp
  · intro hret
    unfold make_request
    rw [mkreqGo_resp_run cfg out tmo cfg.maxRetries cfg.maxRetries 0 [] [] le_rfl
      (fun i hi => by simpa using hret i hi)]
    simp only [Nat.sub_self, mkreqGo, Nat.zero_add, List.nil_append]
    rw [← List.range_eq_range']

/-- Witness for C7: with two retryable responses before success, the loop
returns the HTTP 200 body after sleeping 1s then 2s, posting three times
with the unchanged timeout. -/
theorem make_request_retry_policy_witness :
    make_request c7cfg c7out 10 =
      ⟨.ok "done", [(1 : ℚ), 2], [10, 10, 10]⟩ := by
  have h := (make_request_retry_policy c7cfg c7out 10 2 0 "OK" "" "done").2.2.2.2.2.1
    (by decide) (by decide) rfl
  rw [h]
  norm_num [c7cfg, calculate_backoff, List.range_succ, List.replicate_succ]

end Ap

namespace Ing

/-- If `splitFirst` succeeds, it returns a genuine decomposition at an
occurrence of `c` with no earlier occurrence. -/
theorem splitFirst_sound (c : Char) :
    ∀ (l a b : List Char), splitFirst c l = some (a, b) →
      l = a ++ c :: b ∧ c ∉ a := by
  intro l
  induction l with
  | nil => intro a b h; simp [splitFirst] at h
  | cons x xs ih =>
    intro a b h
    by_cases hx : x = c
    · rw [splitFirst, if_pos hx] at h
      simp only [Option.some.injEq, Prod.mk.injEq] at h
      obtain ⟨ha, hb⟩ := h
      subst ha hb hx
      simp
    · rw [splitFirst, if_neg hx] at h
      cases hs : splitFirst c xs with
      | none => rw [hs] at h; simp at h
      | some p =>
        obtain ⟨a', b'⟩ := p
        rw [hs] at h
        simp only [Option.map_some', Option.some.injEq, Prod.mk.injEq] at h
        obtain ⟨ha, hb⟩ := h
        obtain ⟨hxs, hna⟩ := ih a' b' hs
        subst ha hb
        refine ⟨by rw [hxs]; simp, ?_⟩
        intro hmem
        rcases List.mem_cons.mp hmem with h1 | h1
        · exact hx h1.symm
        · exact hna h1

/-- `splitFirst` finds the first occurrence: on `a ++ c :: b` with `c ∉ a`
it returns exactly `(a, b)`. -/
theorem splitFirst_complete (c : Char) :
    ∀ (a b : List Char), c ∉ a → splitFirst c (a ++ c :: b) = some (a, b) := by
  intro a
  induction a with
  | nil => intro b _; simp [splitFirst]
  | cons x xs ih =>
    intro b hc
    have hx : ¬ x = c := fun he => hc (by simp [he])
    have hcx : c ∉ xs := fun hm => hc (List.mem_cons_of_mem x hm)
    rw [List.cons_append, splitFirst, if_neg hx, ih b hcx]
    rfl

/-- If `splitLast` succeeds, it returns a genuine decomposition at an
occurrence of `c` with no later occurrence. -/
theorem splitLast_sound (c : Char) (l a b : List Char)
    (h : splitLast c l = some (a, b)) : l = a ++ c :: b ∧ c ∉ b := by
  unfold splitLast at h
  cases hs : splitFirst c l.reverse with
  | none => rw [hs] at h; simp at h
  | some p =>
    obtain ⟨x, y⟩ := p
    rw [hs] at h
    simp only [Option.some.injEq, Prod.mk.injEq] at h
    obtain ⟨ha, hb⟩ := h
    obtain ⟨hl, hnx⟩ := splitFirst_sound c l.reverse x y hs
    subst ha hb
    constructor
    · have := congrArg List.reverse hl
      rw [List.reverse_reverse] at this
      rw [this, List.reverse_append]
      simp
    · intro hm
      exact hnx (List.mem_reverse.mp hm)

/-- `splitLast` finds the last occurrence: on `a ++ c :: b` with `c ∉ b`
it returns exactly `(a, b)`. -/
theorem splitLast_complete (c : Char) (a b : List Char) (hc : c ∉ b) :
    splitLast c (a ++ c :: b) = some (a, b) := by
  unfold splitLast
  have hrev : (a ++ c :: b).reverse = b.reverse ++ c :: a.reverse := by
    simp [List.reverse_append]
  rw [hrev, splitFirst_complete c b.reverse a.reverse
    (fun hm => hc (List.mem_reverse.mp hm))]
  simp

/-- Dropping a satisfied run twice is the same as dropping it once. -/
theorem dropWhile_idem (p : Char → Bool) (l : List Char) :
    (l.dropWhile p).dropWhile p = l.dropWhile p := by
  induction l with
  | nil => rfl
  | cons x xs ih =>
    by_cases h : p x
    · simp [List.dropWhile_cons, h, ih]
    · simp [List.dropWhile_cons, h]

/-- Dropping a run never lengthens a list. -/
theorem dropWhile_length_le (p : Char → Bool) :
    ∀ l : List Char, (List.dropWhile p l).length ≤ l.length := by
  intro l
  induction l with
  | nil => simp
  | cons x xs ih =>
    by_cases h : p x
    · rw [List.dropWhile_cons, if_pos h]
      exact le_trans ih (by simp)
    · rw [List.dropWhile_cons, if_neg h]

/-- A list fixed by `dropWhile p` does not start with a satisfying
element. -/
theorem dropWhile_head_false (p : Char → Bool) (x : Char) (xs : List Char)
    (h : List.dropWhile p (x :: xs) = x :: xs) : p x = false := by
  by_cases hp : p x
  · rw [List.dropWhile_cons, if_pos hp] at h
    have hle := dropWhile_length_le p xs
    rw [h] at hle
    simp at hle
  · simpa using hp

/-- A stripped list has no leading whitespace left to strip. -/
theorem pyStripL_noLead (s : List Char) :
    List.dropWhile wsChar (pyStripL s) = pyStripL s := by
  unfold pyStripL
  have hAi := dropWhile_idem wsChar s
  generalize hA : List.dropWhile wsChar s = A at hAi ⊢
  have hsp : A.reverse =
      A.reverse.takeWhile wsChar ++ A.reverse.dropWhile wsChar :=
    (List.takeWhile_append_dropWhile wsChar A.reverse).symm
  generalize hB : List.dropWhile wsChar A.reverse = B at hsp ⊢
  generalize hT : List.takeWhile wsChar A.reverse = T at hsp
  have hA2 : A = B.reverse ++ T.reverse := by
    have hr := congrArg List.reverse hsp
    rw [List.reverse_reverse, List.reverse_append] at hr
    exact hr
  cases hBr : B.reverse with
  | nil => rfl
  | cons c r =>
    rw [hBr, List.cons_append] at hA2
    have hc : wsChar c = false := by
      apply dropWhile_head_false wsChar c (r ++ T.reverse)
      rw [← hA2]
      exact hAi
    rw [List.dropWhile_cons, if_neg (by simp [hc])]

/-- Python `strip()` is idempotent. -/
theorem pyStripL_idem (s : List Char) :
    pyStripL (pyStripL s) = pyStripL s := by
  have h1 := pyStripL_noLead s
  show ((List.dropWhile wsChar (pyStripL s)).reverse.dropWhile
    wsChar).reverse = pyStripL s
  rw [h1]
  have h2 : (pyStripL s).reverse =
      List.dropWhile wsChar (List.dropWhile wsChar s).reverse := by
    unfold pyStripL
    rw [List.reverse_reverse]
  rw [h2, dropWhile_idem, ← h2, List.reverse_reverse]

/-- A list satisfying `EmailSpec` is non-empty. -/
theorem EmailSpec_ne_nil {s : List Char} (h : EmailSpec s) : s ≠ [] := by
  obtain ⟨loc, mid, tld, heq, _⟩ := h
  intro hnil
  rw [hnil] at heq
  exact List.append_ne_nil_of_right_ne_nil loc (by simp) heq.symm

/-- The executable matcher agrees with the specification's decomposition of
a well-formed email. -/
theorem emailMatch_iff (s : List Char) : emailMatch s = true ↔ EmailSpec s := by
  constructor
  · intro h
    cases hsf : splitFirst '@' s with
    | none => simp [emailMatch, hsf] at h
    | some p =>
      obtain ⟨loc, dom⟩ := p
      cases hsl : splitLast '.' dom with
      | none => simp [emailMatch, hsf, hsl] at h
      | some q =>
        obtain ⟨mid, tld⟩ := q
        simp only [emailMatch, hsf, hsl, Bool.and_eq_true, Bool.not_eq_true',
          List.isEmpty_eq_false, List.all_eq_true, decide_eq_true_eq,
          and_assoc] at h
        obtain ⟨hln, hlc, hmn, hmc, htl, hta⟩ := h
        obtain ⟨hseq, _⟩ := splitFirst_sound '@' s loc dom hsf
        obtain ⟨hdeq, _⟩ := splitLast_sound '.' dom mid tld hsl
        exact ⟨loc, mid, tld, by rw [hseq, hdeq], hln, hlc, hmn, hmc, htl, hta⟩
  · rintro ⟨loc, mid, tld, hseq, hln, hlc, hmn, hmc, htl, hta⟩
    have hnl : '@' ∉ loc := fun hm => by
      have := hlc '@' hm
      simp [isLocalChar] at this
    have h1 : splitFirst '@' s = some (loc, mid ++ '.' :: tld) := by
      rw [hseq]
      exact splitFirst_complete '@' loc (mid ++ '.' :: tld) hnl
    have hnt : '.' ∉ tld := fun hm => by
      have := hta '.' hm
      simp [Char.isAlpha, Char.isUpper, Char.isLower] at this
    have h2 : splitLast '.' (mid ++ '.' :: tld) = some (mid, tld) :=
      splitLast_complete '.' mid tld hnt
    simp only [emailMatch, h1, h2, Bool.and_eq_true, Bool.not_eq_true',
      List.isEmpty_eq_false, List.all_eq_true, decide_eq_true_eq, and_assoc]
    exact ⟨hln, hlc, hmn, hmc, htl, hta⟩

/-- Stripping before validation changes nothing, because `strip()` is
idempotent and `validate_email` strips its argument itself. -/
theorem validate_email_strip_invariant (s : List Char) :
    validate_email (some (pyStripL s)) = validate_email (some s) := by
  simp only [validate_email, pyStripL_idem]

/-- C9: `validate_email` accepts exactly the strings that, after trimming,
have length at most 254 and decompose as local part, at sign, then a domain
with at least one dot ending in an alphabetic top-level domain of length at
least two; `None` is rejected; the row filter of `normalize_dataframe` keeps
exactly the rows whose email cell is a string passing `validate_email`
(missing and blank cells fail it), and with the canonical email column
present it filters without raising; with the column absent it drops nothing,
and the email gate of `process_file` fails hard exactly when rows remain and
the canonical email column is absent. -/
theorem validate_email_and_email_gate (s : List Char) (v : Val)
    (rows : List Val) :
    (validate_email (some s) = true ↔
      (pyStripL s).length ≤ 254 ∧ EmailSpec (pyStripL s))
    ∧ validate_email none = false
    ∧ (keep_row_email v = true ↔
        ∃ str, v = Val.vstr str ∧ validate_email (some str.data) = true)
    ∧ normalizeEmailStage true rows = rows.filter keep_row_email
    ∧ normalizeEmailStage false rows = rows
    ∧ (∀ u, u ∈ normalizeEmailStage true rows ↔
        u ∈ rows ∧ keep_row_email u = true)
    ∧ processFileEmailGate true rows = .ok (rows.filter keep_row_email)
    ∧ (rows = [] → processFileEmailGate false rows = .ok [])
    ∧ (rows ≠ [] → processFileEmailGate false rows = .error emailColErrMsg) := by
  refine ⟨?_, rfl, ?_, rfl, rfl, ?_, ?_, ?_, ?_⟩
  · constructor
    · intro h
      simp only [validate_email] at h
      by_cases he : (pyStripL s).isEmpty
      · rw [if_pos he] at h
        exact absurd h (by simp)
      · rw [if_neg he] at h
        by_cases hl : 254 < (pyStripL s).length
        · rw [if_pos hl] at h
          exact absurd h (by simp)
        · rw [if_neg hl] at h
          exact ⟨by omega, (emailMatch_iff (pyStripL s)).mp h⟩
    · rintro ⟨hlen, hspec⟩
      have hne : ¬ (pyStripL s).isEmpty = true := by
        rw [List.isEmpty_iff]
        exact EmailSpec_ne_nil hspec
      simp only [validate_email]
      rw [if_neg hne, if_neg (by omega)]
      exact (emailMatch_iff (pyStripL s)).mpr hspec
  · cases v with
    | vnone => simp [keep_row_email]
    | vnan => simp [keep_row_email]
    | vstr t =>
      simp only [keep_row_email]
      constructor
      · intro h
        by_cases he : (pyStripL t.data).isEmpty
        · rw [if_pos he] at h
          exact absurd h (by simp)
        · rw [if_neg he] at h
          exact ⟨t, rfl, by rw [← validate_email_strip_invariant]; exact h⟩
      · rintro ⟨t2, ht, hv⟩
        have ht2 : t = t2 := by injection ht
        subst ht2
        have hv' : validate_email (some (pyStripL t.data)) = true := by
          rw [validate_email_strip_invariant]
          exact hv
        by_cases he : (pyStripL t.data).isEmpty
        · exfalso
          simp only [validate_email] at hv'
          rw [pyStripL_idem, if_pos he] at hv'
          exact absurd hv' (by simp)
        · rw [if_neg he]
          exact hv'
  · intro u
    simp [normalizeEmailStage, List.mem_filter]
  · show processFileEmailGate true rows = _
    unfold processFileEmailGate
    by_cases h0 : (normalizeEmailStage true rows).length = 0
    · rw [if_pos h0]
      have : rows.filter keep_row_email = [] := by
        have := h0
        simp only [normalizeEmailStage, if_true] at this ⊢
        exact List.eq_nil_of_length_eq_zero this
      simp [normalizeEmailStage, this]
    · rw [if_neg h0, if_pos rfl]
      simp [normalizeEmailStage]
  · intro h
    subst h
    rfl
  · intro h
    unfold processFileEmailGate
    have hlen : ¬ (normalizeEmailStage false rows).length = 0 := by
      simp only [normalizeEmailStage, if_neg Bool.false_ne_true]
      simpa using h
    rw [if_neg hlen]
    simp

/-- Witness for C9: one remaining row and no email column make the gate of
`process_file` fail hard with the typed error. -/
theorem validate_email_and_email_gate_witness :
    ([Val.vstr "nobody"] : List Val) ≠ [] ∧
    processFileEmailGate false [Val.vstr "nobody"] = .error emailColErrMsg :=
  ⟨by decide, (validate_email_and_email_gate ("a@b.co".data) Val.vnone
      [Val.vstr "nobody"]).2.2.2.2.2.2.2.2 (by decide)⟩

end Ing
